import Mathlib

/-!
IconVG encoder (shiny/iconvg/encode.go)

A shallow embedding of the encoder of package iconvg, and theorems about its
error latch, its two-mode protocol, the run-length batching of drawing
operations and the header it writes.

Machine integers are natural numbers (bytes are reduced modulo 256 where the
source converts to uint8); a float32 is a value of an abstract type, because
encode.go only stores such values, compares them and hands them to the codec.
A call that does not return normally (a Go panic, an index out of range, or a
loop that never ends) is a Fault.
-/

namespace Iconvg

/-- The declarations of package iconvg that encode.go uses and that are declared
in other files of the package: the float32 values it needs, the magic prefix, the
metadata constants and the four buffer codec methods. They are parameters of the
development. Each codec method is given by the bytes it appends to the buffer it
is called on. -/
structure Env where
  /-- The type float32. -/
  F32 : Type
  /-- The float32 literal 0. -/
  zero : F32
  /-- The constant positiveInfinity. -/
  positiveInfinity : F32
  /-- The comparison == of two float32 values. -/
  feq : F32 → F32 → Bool
  /-- The conversion float32(u) of a uint32. -/
  ofUInt32 : Nat → F32
  /-- The conversion uint32(f) of a float32. -/
  toUInt32 : F32 → Nat
  /-- The type Palette. -/
  Palette : Type
  /-- The comparison == of two palettes. -/
  paletteEq : Palette → Palette → Bool
  /-- The constant DefaultPalette. -/
  DefaultPalette : Palette
  /-- The four coordinates Min[0], Min[1], Max[0], Max[1] of DefaultViewBox. -/
  DefaultViewBox : (F32 × F32) × (F32 × F32)
  /-- The byte string magic. -/
  magic : List Nat
  /-- The constant midViewBox. -/
  midViewBox : Nat
  /-- The bytes buffer.encodeNatural appends. -/
  encodeNatural : Nat → List Nat
  /-- The bytes buffer.encodeReal appends. -/
  encodeReal : F32 → List Nat
  /-- The bytes buffer.encodeCoordinate appends. -/
  encodeCoordinate : F32 → List Nat
  /-- The bytes buffer.encodeZeroToOne appends. -/
  encodeZeroToOne : F32 → List Nat

/-- Modelled from the spec: the type Rectangle of a view box is declared outside
encode.go; the spec gives it as two corners, each a pair of real numbers. -/
structure Rectangle (E : Env) where
  Min : E.F32 × E.F32
  Max : E.F32 × E.F32

/-- Modelled from the spec: the type Metadata is declared outside encode.go; the
spec gives it as a view box and a suggested palette. -/
structure Metadata (E : Env) where
  ViewBox : Rectangle E
  Palette : E.Palette

/-- The constant DefaultViewBox as a Rectangle. -/
def DefaultViewBox (E : Env) : Rectangle E :=
  { Min := E.DefaultViewBox.1, Max := E.DefaultViewBox.2 }

/-- Go's == on two rectangles: the four float32 components compared in turn. -/
def Rectangle.eq {E : Env} (a b : Rectangle E) : Bool :=
  E.feq a.Min.1 b.Min.1 && E.feq a.Min.2 b.Min.2 &&
    E.feq a.Max.1 b.Max.1 && E.feq a.Max.2 b.Max.2

/-- Modelled from the spec: the type mode and its constants modeStyling and
modeDrawing are declared outside encode.go; the spec gives the two modes Styling
and Drawing, Styling being the mode at construction and reset, that is the zero
value that the struct literal of Reset leaves in the field. -/
inductive Mode where
  | modeStyling
  | modeDrawing
  deriving DecidableEq, Repr

/-- The three error values declared in encode.go. -/
inductive Error where
  | errDrawingOpsUsedInStylingMode
  | errInvalidSelectorAdjustment
  | errStylingOpsUsedInDrawingMode
  deriving DecidableEq, Repr

/-- The ways a call can fail to return normally. -/
inductive Fault where
  /-- The call panic("TODO: encode mcSuggestedPalette") of Reset. -/
  | todoSuggestedPalette
  /-- The call panic("unreachable") of draw. -/
  | unreachable
  /-- An index into drawArgs that is out of range. -/
  | indexOutOfRange
  /-- The loop of flushDrawOps did not end within the iterations allowed. -/
  | outOfFuel
  deriving DecidableEq, Repr

/-- The struct Encoder. -/
structure Encoder (E : Env) where
  buf : List Nat
  altBuf : List Nat
  metadata : Metadata E
  err : Option Error
  mode : Mode
  drawOp : Nat
  drawArgs : List E.F32
  cSel : Nat
  nSel : Nat
  lod0 : E.F32
  lod1 : E.F32

/-- One entry of the table drawOps. -/
structure DrawOp where
  opcodeBase : Nat
  maxRepCount : Nat
  nArgs : Nat
  deriving DecidableEq, Repr

/-- The entries the composite literal of drawOps lists, each under the byte of its
drawing operation. -/
def drawOpsTable : List (Nat × DrawOp) :=
  [ (76, ⟨0x00, 32, 2⟩),   -- 'L'
    (108, ⟨0x20, 32, 2⟩),  -- 'l'
    (84, ⟨0x40, 16, 2⟩),   -- 'T'
    (116, ⟨0x50, 16, 2⟩),  -- 't'
    (81, ⟨0x60, 16, 4⟩),   -- 'Q'
    (113, ⟨0x70, 16, 4⟩),  -- 'q'
    (83, ⟨0x80, 16, 4⟩),   -- 'S'
    (115, ⟨0x90, 16, 4⟩),  -- 's'
    (67, ⟨0xa0, 16, 6⟩),   -- 'C'
    (99, ⟨0xb0, 16, 6⟩),   -- 'c'
    (65, ⟨0xc0, 16, 6⟩),   -- 'A'
    (97, ⟨0xd0, 16, 6⟩),   -- 'a'
    (90, ⟨0xe1, 1, 0⟩),    -- 'Z'
    (89, ⟨0xe2, 1, 2⟩),    -- 'Y'
    (121, ⟨0xe3, 1, 2⟩),   -- 'y'
    (72, ⟨0xe6, 1, 1⟩),    -- 'H'
    (104, ⟨0xe7, 1, 1⟩),   -- 'h'
    (86, ⟨0xe8, 1, 1⟩),    -- 'V'
    (118, ⟨0xe9, 1, 1⟩) ]  -- 'v'

/-- The array drawOps, indexed by the byte of the drawing operation; the entries
the literal does not list are zero. -/
def drawOps (c : Nat) : DrawOp :=
  match drawOpsTable.lookup c with
  | some op => op
  | none => ⟨0, 0, 0⟩

variable {E : Env}

/-- The method Bytes: the pair (bytes, error) it returns and the encoder it leaves
behind (the method assigns to no field). A byte slice is the list of its bytes, as
for the fields of the encoder, so that a nil slice and an empty one are both the
empty list: the nil of the error branch is [], and so is the conversion of a nil
buffer. A nil error is none. -/
def Bytes (e : Encoder E) : (List Nat × Option Error) × Encoder E :=
  match e.err with
  | some err => (([], some err), e)
  | none => ((e.buf, none), e)

/-- The method Reset: it returns the encoder it leaves behind, or the fault it ends in. -/
def Reset (e : Encoder E) (m : Metadata E) : Except Fault (Encoder E) :=
  let e1 : Encoder E :=
    { buf := (e.buf.take 0) ++ E.magic
      altBuf := []
      metadata := m
      err := none
      mode := Mode.modeStyling
      drawOp := 0
      drawArgs := []
      cSel := 0
      nSel := 0
      lod0 := E.zero
      lod1 := E.positiveInfinity }
  let nMetadataChunks0 : Nat := 0
  let mcViewBox : Bool := !(m.ViewBox.eq (DefaultViewBox E))
  let nMetadataChunks1 := if mcViewBox then nMetadataChunks0 + 1 else nMetadataChunks0
  let mcSuggestedPalette : Bool := !(E.paletteEq m.Palette E.DefaultPalette)
  let nMetadataChunks := if mcSuggestedPalette then nMetadataChunks1 + 1 else nMetadataChunks1
  let e2 : Encoder E := { e1 with buf := e1.buf ++ E.encodeNatural (nMetadataChunks % 2 ^ 32) }
  let e3 : Encoder E :=
    if mcViewBox then
      let altBuf := (e2.altBuf.take 0) ++ E.encodeNatural E.midViewBox
        ++ E.encodeCoordinate m.ViewBox.Min.1
        ++ E.encodeCoordinate m.ViewBox.Min.2
        ++ E.encodeCoordinate m.ViewBox.Max.1
        ++ E.encodeCoordinate m.ViewBox.Max.2
      { e2 with
        altBuf := altBuf
        buf := e2.buf ++ E.encodeNatural (altBuf.length % 2 ^ 32) ++ altBuf }
    else e2
  if mcSuggestedPalette then Except.error Fault.todoSuggestedPalette
  else Except.ok e3

/-- The encoder NewEncoder allocates before it calls Reset: an empty buffer and
zero values (the metadata field, which Reset overwrites, holds m). -/
def emptyEncoder (m : Metadata E) : Encoder E :=
  { buf := []
    altBuf := []
    metadata := m
    err := none
    mode := Mode.modeStyling
    drawOp := 0
    drawArgs := []
    cSel := 0
    nSel := 0
    lod0 := E.zero
    lod1 := E.zero }

/-- NewEncoder. -/
def NewEncoder (m : Metadata E) : Except Fault (Encoder E) :=
  Reset (emptyEncoder m) m

/-- The accessor CSel. -/
def CSel (e : Encoder E) : Nat := e.cSel

/-- The accessor NSel. -/
def NSel (e : Encoder E) : Nat := e.nSel

/-- The accessor LOD. -/
def LOD (e : Encoder E) : E.F32 × E.F32 := (e.lod0, e.lod1)

/-- SetCSel. -/
def SetCSel (cSel : Nat) (e : Encoder E) : Encoder E :=
  if e.err ≠ none then e
  else if e.mode ≠ Mode.modeStyling then
    { e with err := some Error.errStylingOpsUsedInDrawingMode }
  else
    { e with cSel := cSel, buf := e.buf ++ [(cSel &&& 0x3f) % 256] }

/-- SetNSel. -/
def SetNSel (nSel : Nat) (e : Encoder E) : Encoder E :=
  if e.err ≠ none then e
  else if e.mode ≠ Mode.modeStyling then
    { e with err := some Error.errStylingOpsUsedInDrawingMode }
  else
    { e with nSel := nSel, buf := e.buf ++ [((nSel &&& 0x3f) ||| 0x40) % 256] }

/-- SetLOD. -/
def SetLOD (lod0 lod1 : E.F32) (e : Encoder E) : Encoder E :=
  if e.err ≠ none then e
  else if e.mode ≠ Mode.modeStyling then
    { e with err := some Error.errStylingOpsUsedInDrawingMode }
  else
    { e with
      lod0 := lod0
      lod1 := lod1
      buf := e.buf ++ [0xc7] ++ E.encodeReal lod0 ++ E.encodeReal lod1 }

/-- StartPath. -/
def StartPath (adj : Int) (x y : E.F32) (e : Encoder E) : Encoder E :=
  if e.err ≠ none then e
  else if e.mode ≠ Mode.modeStyling then
    { e with err := some Error.errStylingOpsUsedInDrawingMode }
  else if adj < 0 ∨ 6 < adj then
    { e with err := some Error.errInvalidSelectorAdjustment }
  else
    { e with
      buf := e.buf ++ [((0xc0 + adj) % 256).toNat] ++ E.encodeCoordinate x
        ++ E.encodeCoordinate y
      mode := Mode.modeDrawing }

/-- The inner loop of flushDrawOps for the plain operations: j coordinates are
read from index i on. It returns the buffer and the index reached. -/
def coordLoop (args : List E.F32) : Nat → Nat → List Nat → Except Fault (List Nat × Nat)
  | 0, i, buf => Except.ok (buf, i)
  | j + 1, i, buf =>
    match args[i]? with
    | none => Except.error Fault.indexOutOfRange
    | some a => coordLoop args j (i + 1) (buf ++ E.encodeCoordinate a)

/-- The inner loop of flushDrawOps for the arcs 'A' and 'a': j tuples of six
arguments are read from index i on. -/
def arcLoop (args : List E.F32) : Nat → Nat → List Nat → Except Fault (List Nat × Nat)
  | 0, i, buf => Except.ok (buf, i)
  | j + 1, i, buf =>
    match args[i + 0]?, args[i + 1]?, args[i + 2]?, args[i + 3]?, args[i + 4]?,
      args[i + 5]? with
    | some a0, some a1, some a2, some a3, some a4, some a5 =>
      arcLoop args j (i + 6)
        (buf ++ E.encodeCoordinate a0 ++ E.encodeCoordinate a1 ++ E.encodeZeroToOne a2
          ++ E.encodeNatural (E.toUInt32 a3) ++ E.encodeCoordinate a4
          ++ E.encodeCoordinate a5)
    | _, _, _, _, _, _ => Except.error Fault.indexOutOfRange

/-- The outer loop of flushDrawOps, with n tuples left and i the index reached.
The first argument bounds the number of iterations. -/
def flushLoop (drawOp : Nat) (op : DrawOp) (args : List E.F32) :
    Nat → Nat → Nat → List Nat → Except Fault (List Nat)
  | 0, _, n, buf => if n > 0 then Except.error Fault.outOfFuel else Except.ok buf
  | fuel + 1, i, n, buf =>
    if n > 0 then
      let m := if n > op.maxRepCount then op.maxRepCount else n
      let buf1 := buf ++ [(op.opcodeBase + m % 256 + 255) % 256]
      let r :=
        if drawOp = 65 ∨ drawOp = 97 then arcLoop args m i buf1  -- case 'A', 'a'
        else coordLoop args (m * op.nArgs) i buf1
      match r with
      | Except.error f => Except.error f
      | Except.ok (buf2, i2) => flushLoop drawOp op args fuel i2 (n - m) buf2
    else Except.ok buf

/-- The method flushDrawOps. The loop is given as many iterations as there are
tuples: each iteration of a terminating run consumes at least one. -/
def flushDrawOps (e : Encoder E) : Except Fault (Encoder E) :=
  if e.drawOp = 0x00 then Except.ok e
  else
    let op := drawOps e.drawOp
    let r : Except Fault (List Nat) :=
      if op.nArgs = 0 then Except.ok (e.buf ++ [op.opcodeBase])
      else
        let n := e.drawArgs.length / op.nArgs
        flushLoop e.drawOp op e.drawArgs n 0 n e.buf
    match r with
    | Except.error f => Except.error f
    | Except.ok buf => Except.ok { e with buf := buf, drawOp := 0x00, drawArgs := e.drawArgs.take 0 }

/-- The method draw. -/
def draw (drawOp : Nat) (arg0 arg1 arg2 arg3 arg4 arg5 : E.F32) (e : Encoder E) :
    Except Fault (Encoder E) :=
  if e.err ≠ none then Except.ok e
  else if e.mode ≠ Mode.modeDrawing then
    Except.ok { e with err := some Error.errDrawingOpsUsedInStylingMode }
  else
    let r1 := if e.drawOp ≠ drawOp then flushDrawOps e else Except.ok e
    match r1 with
    | Except.error f => Except.error f
    | Except.ok e1 =>
      let e2 : Encoder E := { e1 with drawOp := drawOp }
      let r3 : Except Fault (Encoder E) :=
        match (drawOps drawOp).nArgs with
        | 0 => Except.ok e2
        | 1 => Except.ok { e2 with drawArgs := e2.drawArgs ++ [arg0] }
        | 2 => Except.ok { e2 with drawArgs := e2.drawArgs ++ [arg0, arg1] }
        | 4 => Except.ok { e2 with drawArgs := e2.drawArgs ++ [arg0, arg1, arg2, arg3] }
        | 6 =>
          Except.ok { e2 with drawArgs := e2.drawArgs ++ [arg0, arg1, arg2, arg3, arg4, arg5] }
        | _ => Except.error Fault.unreachable
      match r3 with
      | Except.error f => Except.error f
      | Except.ok e3 =>
        if drawOp = 90 then flushDrawOps { e3 with mode := Mode.modeStyling }  -- case 'Z'
        else if drawOp = 89 ∨ drawOp = 121 then flushDrawOps e3  -- case 'Y', 'y'
        else Except.ok e3

/-- The method arcTo. -/
def arcTo (drawOp : Nat) (rx ry xAxisRotation : E.F32) (largeArc sweep : Bool) (x y : E.F32)
    (e : Encoder E) : Except Fault (Encoder E) :=
  let flags0 : Nat := 0
  let flags1 := if largeArc then flags0 ||| 0x01 else flags0
  let flags2 := if sweep then flags1 ||| 0x02 else flags1
  draw drawOp rx ry xAxisRotation (E.ofUInt32 flags2) x y e

/-! The drawing methods: each passes the byte of its letter to draw ('H' = 72,
'h' = 104, 'V' = 86, 'v' = 118, 'L' = 76, 'l' = 108, 'T' = 84, 't' = 116, 'Q' = 81,
'q' = 113, 'S' = 83, 's' = 115, 'C' = 67, 'c' = 99, 'Z' = 90, 'Y' = 89, 'y' = 121,
'A' = 65, 'a' = 97). -/

def AbsHLineTo (x : E.F32) (e : Encoder E) := draw 72 x E.zero E.zero E.zero E.zero E.zero e
def RelHLineTo (x : E.F32) (e : Encoder E) := draw 104 x E.zero E.zero E.zero E.zero E.zero e
def AbsVLineTo (y : E.F32) (e : Encoder E) := draw 86 y E.zero E.zero E.zero E.zero E.zero e
def RelVLineTo (y : E.F32) (e : Encoder E) := draw 118 y E.zero E.zero E.zero E.zero E.zero e
def AbsLineTo (x y : E.F32) (e : Encoder E) := draw 76 x y E.zero E.zero E.zero E.zero e
def RelLineTo (x y : E.F32) (e : Encoder E) := draw 108 x y E.zero E.zero E.zero E.zero e
def AbsSmoothQuadTo (x y : E.F32) (e : Encoder E) := draw 84 x y E.zero E.zero E.zero E.zero e
def RelSmoothQuadTo (x y : E.F32) (e : Encoder E) := draw 116 x y E.zero E.zero E.zero E.zero e
def AbsQuadTo (x1 y1 x y : E.F32) (e : Encoder E) := draw 81 x1 y1 x y E.zero E.zero e
def RelQuadTo (x1 y1 x y : E.F32) (e : Encoder E) := draw 113 x1 y1 x y E.zero E.zero e
def AbsSmoothCubeTo (x2 y2 x y : E.F32) (e : Encoder E) := draw 83 x2 y2 x y E.zero E.zero e
def RelSmoothCubeTo (x2 y2 x y : E.F32) (e : Encoder E) := draw 115 x2 y2 x y E.zero E.zero e
def AbsCubeTo (x1 y1 x2 y2 x y : E.F32) (e : Encoder E) := draw 67 x1 y1 x2 y2 x y e
def RelCubeTo (x1 y1 x2 y2 x y : E.F32) (e : Encoder E) := draw 99 x1 y1 x2 y2 x y e
def ClosePathEndPath (e : Encoder E) := draw 90 E.zero E.zero E.zero E.zero E.zero E.zero e
def ClosePathAbsMoveTo (x y : E.F32) (e : Encoder E) := draw 89 x y E.zero E.zero E.zero E.zero e
def ClosePathRelMoveTo (x y : E.F32) (e : Encoder E) := draw 121 x y E.zero E.zero E.zero E.zero e

def AbsArcTo (rx ry xAxisRotation : E.F32) (largeArc sweep : Bool) (x y : E.F32)
    (e : Encoder E) := arcTo 65 rx ry xAxisRotation largeArc sweep x y e

def RelArcTo (rx ry xAxisRotation : E.F32) (largeArc sweep : Bool) (x y : E.F32)
    (e : Encoder E) := arcTo 97 rx ry xAxisRotation largeArc sweep x y e

/-- A call of one of the styling or drawing methods, with its arguments. -/
inductive Call (E : Env) where
  | SetCSel (cSel : Nat)
  | SetNSel (nSel : Nat)
  | SetLOD (lod0 lod1 : E.F32)
  | StartPath (adj : Int) (x y : E.F32)
  | AbsHLineTo (x : E.F32)
  | RelHLineTo (x : E.F32)
  | AbsVLineTo (y : E.F32)
  | RelVLineTo (y : E.F32)
  | AbsLineTo (x y : E.F32)
  | RelLineTo (x y : E.F32)
  | AbsSmoothQuadTo (x y : E.F32)
  | RelSmoothQuadTo (x y : E.F32)
  | AbsQuadTo (x1 y1 x y : E.F32)
  | RelQuadTo (x1 y1 x y : E.F32)
  | AbsSmoothCubeTo (x2 y2 x y : E.F32)
  | RelSmoothCubeTo (x2 y2 x y : E.F32)
  | AbsCubeTo (x1 y1 x2 y2 x y : E.F32)
  | RelCubeTo (x1 y1 x2 y2 x y : E.F32)
  | ClosePathEndPath
  | ClosePathAbsMoveTo (x y : E.F32)
  | ClosePathRelMoveTo (x y : E.F32)
  | AbsArcTo (rx ry xAxisRotation : E.F32) (largeArc sweep : Bool) (x y : E.F32)
  | RelArcTo (rx ry xAxisRotation : E.F32) (largeArc sweep : Bool) (x y : E.F32)

/-- The effect of a call on the encoder. -/
def Call.apply : Call E → Encoder E → Except Fault (Encoder E)
  | .SetCSel n, e => Except.ok (Iconvg.SetCSel n e)
  | .SetNSel n, e => Except.ok (Iconvg.SetNSel n e)
  | .SetLOD l0 l1, e => Except.ok (Iconvg.SetLOD l0 l1 e)
  | .StartPath adj x y, e => Except.ok (Iconvg.StartPath adj x y e)
  | .AbsHLineTo x, e => Iconvg.AbsHLineTo x e
  | .RelHLineTo x, e => Iconvg.RelHLineTo x e
  | .AbsVLineTo y, e => Iconvg.AbsVLineTo y e
  | .RelVLineTo y, e => Iconvg.RelVLineTo y e
  | .AbsLineTo x y, e => Iconvg.AbsLineTo x y e
  | .RelLineTo x y, e => Iconvg.RelLineTo x y e
  | .AbsSmoothQuadTo x y, e => Iconvg.AbsSmoothQuadTo x y e
  | .RelSmoothQuadTo x y, e => Iconvg.RelSmoothQuadTo x y e
  | .AbsQuadTo x1 y1 x y, e => Iconvg.AbsQuadTo x1 y1 x y e
  | .RelQuadTo x1 y1 x y, e => Iconvg.RelQuadTo x1 y1 x y e
  | .AbsSmoothCubeTo x2 y2 x y, e => Iconvg.AbsSmoothCubeTo x2 y2 x y e
  | .RelSmoothCubeTo x2 y2 x y, e => Iconvg.RelSmoothCubeTo x2 y2 x y e
  | .AbsCubeTo x1 y1 x2 y2 x y, e => Iconvg.AbsCubeTo x1 y1 x2 y2 x y e
  | .RelCubeTo x1 y1 x2 y2 x y, e => Iconvg.RelCubeTo x1 y1 x2 y2 x y e
  | .ClosePathEndPath, e => Iconvg.ClosePathEndPath e
  | .ClosePathAbsMoveTo x y, e => Iconvg.ClosePathAbsMoveTo x y e
  | .ClosePathRelMoveTo x y, e => Iconvg.ClosePathRelMoveTo x y e
  | .AbsArcTo rx ry r l s x y, e => Iconvg.AbsArcTo rx ry r l s x y e
  | .RelArcTo rx ry r l s x y, e => Iconvg.RelArcTo rx ry r l s x y e

/-- The styling methods: SetCSel, SetNSel, SetLOD and StartPath. -/
def Call.isStyling : Call E → Bool
  | .SetCSel _ => true
  | .SetNSel _ => true
  | .SetLOD _ _ => true
  | .StartPath _ _ _ => true
  | _ => false

/-- The drawing methods: all the calls that go through draw. -/
def Call.isDrawing (c : Call E) : Bool := !c.isStyling

/-- A sequence of calls, made one after the other; a fault ends it. -/
def run : List (Call E) → Encoder E → Except Fault (Encoder E)
  | [], e => Except.ok e
  | c :: cs, e =>
    match c.apply e with
    | Except.error f => Except.error f
    | Except.ok e1 => run cs e1

/-! ## Definitions that follow the words of the specification -/

/-- The byte of the drawing operation that a drawing method passes to draw (0 for
a styling method, which passes none). -/
def Call.drawOp : Call E → Nat
  | .AbsHLineTo _ => 72
  | .RelHLineTo _ => 104
  | .AbsVLineTo _ => 86
  | .RelVLineTo _ => 118
  | .AbsLineTo _ _ => 76
  | .RelLineTo _ _ => 108
  | .AbsSmoothQuadTo _ _ => 84
  | .RelSmoothQuadTo _ _ => 116
  | .AbsQuadTo _ _ _ _ => 81
  | .RelQuadTo _ _ _ _ => 113
  | .AbsSmoothCubeTo _ _ _ _ => 83
  | .RelSmoothCubeTo _ _ _ _ => 115
  | .AbsCubeTo _ _ _ _ _ _ => 67
  | .RelCubeTo _ _ _ _ _ _ => 99
  | .ClosePathEndPath => 90
  | .ClosePathAbsMoveTo _ _ => 89
  | .ClosePathRelMoveTo _ _ => 121
  | .AbsArcTo _ _ _ _ _ _ _ => 65
  | .RelArcTo _ _ _ _ _ _ _ => 97
  | _ => 0

/-- The two flags of an arc packed into one number: 1 for largeArc, 2 for sweep. -/
def arcFlags (largeArc sweep : Bool) : Nat :=
  (if largeArc then 1 else 0) + (if sweep then 2 else 0)

/-- The tuple of arguments of a drawing call: as many as the arity of its
operation (none for a styling method and for ClosePathEndPath). -/
def Call.tuple : Call E → List E.F32
  | .AbsHLineTo x => [x]
  | .RelHLineTo x => [x]
  | .AbsVLineTo y => [y]
  | .RelVLineTo y => [y]
  | .AbsLineTo x y => [x, y]
  | .RelLineTo x y => [x, y]
  | .AbsSmoothQuadTo x y => [x, y]
  | .RelSmoothQuadTo x y => [x, y]
  | .AbsQuadTo x1 y1 x y => [x1, y1, x, y]
  | .RelQuadTo x1 y1 x y => [x1, y1, x, y]
  | .AbsSmoothCubeTo x2 y2 x y => [x2, y2, x, y]
  | .RelSmoothCubeTo x2 y2 x y => [x2, y2, x, y]
  | .AbsCubeTo x1 y1 x2 y2 x y => [x1, y1, x2, y2, x, y]
  | .RelCubeTo x1 y1 x2 y2 x y => [x1, y1, x2, y2, x, y]
  | .ClosePathAbsMoveTo x y => [x, y]
  | .ClosePathRelMoveTo x y => [x, y]
  | .AbsArcTo rx ry r l s x y => [rx, ry, r, E.ofUInt32 (arcFlags l s), x, y]
  | .RelArcTo rx ry r l s x y => [rx, ry, r, E.ofUInt32 (arcFlags l s), x, y]
  | _ => []

/-- The encoding of one tuple of arguments (section 4.4, step 4): plain
coordinates for most kinds; for the arc kinds the two radii as coordinates, the
rotation as a zero-to-one value, the packed flags as a natural number, then the
end point as two coordinates. -/
def encodeTuple (drawOp : Nat) (t : List E.F32) : List Nat :=
  if drawOp = 65 ∨ drawOp = 97 then
    match t with
    | [rx, ry, rot, flags, x, y] =>
      E.encodeCoordinate rx ++ E.encodeCoordinate ry ++ E.encodeZeroToOne rot
        ++ E.encodeNatural (E.toUInt32 flags) ++ E.encodeCoordinate x ++ E.encodeCoordinate y
    | _ => []
  else t.flatMap E.encodeCoordinate

/-- The split of a list into consecutive chunks of k elements, the last one
holding what is left: while elements remain, take min(n, k) of them. The first
argument bounds the number of chunks. -/
def specChunksAux {α : Type} (k : Nat) : Nat → List α → List (List α)
  | 0, _ => []
  | fuel + 1, xs =>
    match xs with
    | [] => []
    | _ :: _ => xs.take k :: specChunksAux k fuel (xs.drop k)

/-- The chunks of at most k elements of a list. -/
def specChunks {α : Type} (k : Nat) (xs : List α) : List (List α) :=
  specChunksAux k xs.length xs

/-- One opcode group: the opcode byte opcodeBase + m - 1 for a run of m tuples,
followed by the encodings of the m tuples. -/
def specGroup (drawOp : Nat) (g : List (List E.F32)) : List Nat :=
  ((drawOps drawOp).opcodeBase + g.length - 1) :: g.flatMap (encodeTuple drawOp)

/-- The bytes the batching algorithm produces for a run of tuples of one kind:
the groups of the chunks of at most maxRepCount tuples. -/
def specFlush (drawOp : Nat) (ts : List (List E.F32)) : List Nat :=
  (specChunks (drawOps drawOp).maxRepCount ts).flatMap (specGroup drawOp)

/-- The maximal runs of consecutive calls of the same kind, in call order: each
run is the byte of its operation with the tuples of its calls. -/
def specRuns : List (Call E) → List (Nat × List (List E.F32))
  | [] => []
  | c :: cs =>
    match specRuns cs with
    | [] => [(c.drawOp, [c.tuple])]
    | (k, ts) :: rest =>
      if k = c.drawOp then (k, c.tuple :: ts) :: rest
      else (c.drawOp, [c.tuple]) :: (k, ts) :: rest

/-- The bytes of a sequence of drawing calls: the groups of each of its maximal
runs, in call order. -/
def specDraw (cs : List (Call E)) : List Nat :=
  (specRuns cs).flatMap (fun r => specFlush r.1 r.2)

/-- The maximal runs of consecutive calls of the same kind, in call order, each
run with its calls: as specRuns, with the calls in the place of their tuples. -/
def specCallRuns : List (Call E) → List (Nat × List (Call E))
  | [] => []
  | c :: cs =>
    match specCallRuns cs with
    | [] => [(c.drawOp, [c])]
    | (k, r) :: rest =>
      if k = c.drawOp then (k, c :: r) :: rest
      else (c.drawOp, [c]) :: (k, r) :: rest

/-- The bytes of a list of groups of calls, each with its opcode byte: for each
group the opcode byte, then the encodings of the tuples of its calls. -/
def specGroupsBytes (gs : List (Nat × List (Call E))) : List Nat :=
  gs.flatMap (fun g => g.1 :: g.2.flatMap (fun c => encodeTuple c.drawOp c.tuple))

/-- The bytes of a whole path (section 8, concrete scenario): the opcode of the
path start with its two coordinates, the groups of each run, the terminator. -/
def specPath (adj : Nat) (x y : E.F32) (cs : List (Call E)) : List Nat :=
  [0xc0 + adj] ++ E.encodeCoordinate x ++ E.encodeCoordinate y ++ specDraw cs ++ [0xe1]

/-- The encoder e is inside a path with the calls pc pending: no error is latched,
the mode is Drawing, pc are drawing calls of the one pending operation, none of
them a closing call, and drawArgs holds their tuples (nothing is pending when pc
is empty). -/
def Pending (e : Encoder E) (pc : List (Call E)) : Prop :=
  e.err = none ∧ e.mode = Mode.modeDrawing ∧
  e.drawArgs = (pc.map Call.tuple).flatten ∧
  (∀ c ∈ pc, c.isDrawing = true ∧ c.drawOp = e.drawOp ∧ c.drawOp ≠ 90 ∧ c.drawOp ≠ 89 ∧
    c.drawOp ≠ 121) ∧
  (pc = [] → e.drawOp = 0)

/-- A call succeeds on an encoder: no error is latched before the call, the
call returns, and no error is latched after it. -/
def Call.succeeds (c : Call E) (e : Encoder E) : Bool :=
  e.err.isNone &&
    (match c.apply e with
     | Except.ok e2 => e2.err.isNone
     | Except.error _ => false)

/-- The calls cs, made from the encoder e0, end between a successful StartPath and
the next successful ClosePathEndPath: some StartPath of cs succeeded and no
ClosePathEndPath after it did. -/
def inDrawingWindow (e0 : Encoder E) (cs : List (Call E)) : Prop :=
  ∃ pre adj x y post ePre,
    cs = pre ++ Call.StartPath adj x y :: post ∧
    run pre e0 = Except.ok ePre ∧
    (Call.StartPath adj x y).succeeds ePre = true ∧
    ∀ post1 post2 eMid, post = post1 ++ Call.ClosePathEndPath :: post2 →
      run (pre ++ Call.StartPath adj x y :: post1) e0 = Except.ok eMid →
      Call.ClosePathEndPath.succeeds eMid = false

/-- The opcode byte flushDrawOps appends for a group of m tuples of the operation
c: op.opcodeBase when the operation takes no argument, and
op.opcodeBase + uint8(m) - 1, in uint8 arithmetic, otherwise. -/
def opcodeByte (c m : Nat) : Nat :=
  if (drawOps c).nArgs = 0 then (drawOps c).opcodeBase
  else ((drawOps c).opcodeBase + m % 256 + 255) % 256

/-- The bytes of the operations the literal of drawOps lists: the op kinds. -/
def drawOpKinds : List Nat := drawOpsTable.map Prod.fst

/-- The payload of the view-box chunk: the four coordinates Min[0], Min[1],
Max[0], Max[1], in that order. -/
def specViewBoxPayload (m : Metadata E) : List Nat :=
  E.encodeCoordinate m.ViewBox.Min.1 ++ E.encodeCoordinate m.ViewBox.Min.2
    ++ E.encodeCoordinate m.ViewBox.Max.1 ++ E.encodeCoordinate m.ViewBox.Max.2

/-- The header with one view-box chunk as section 6 of the specification lays it
out: the magic, the chunk count 1, the chunk-kind tag, the byte length of the
payload, the payload. -/
def specViewBoxHeader (m : Metadata E) : List Nat :=
  E.magic ++ E.encodeNatural 1 ++ E.encodeNatural E.midViewBox
    ++ E.encodeNatural (specViewBoxPayload m).length ++ specViewBoxPayload m

/-- The states an encoder can be in: the one Reset leaves, whatever encoder it is
called on (NewEncoder calls it on a new one), and the one a styling or drawing
method leaves when it is called on such a state. Bytes and the accessors leave
the state as it is. -/
inductive Reachable : Encoder E → Prop where
  | reset (e e2 : Encoder E) (m : Metadata E) :
    Reset e m = Except.ok e2 → Reachable e2
  | call (e e2 : Encoder E) (c : Call E) :
    Reachable e → c.apply e = Except.ok e2 → Reachable e2

/-! ## An environment to evaluate the definitions on -/

/-- An environment on which the definitions above can be evaluated: a float32
is stood for by an integer, and each codec method appends a tag byte and the
value modulo 256. It serves the concrete instances of the theorems only. -/
@[reducible]
def sampleEnv : Env where
  F32 := Int
  zero := 0
  positiveInfinity := 2 ^ 128
  feq := fun a b => decide (a = b)
  ofUInt32 := fun n => (n : Int)
  toUInt32 := fun f => f.toNat % 2 ^ 32
  Palette := List Nat
  paletteEq := fun a b => decide (a = b)
  DefaultPalette := []
  DefaultViewBox := ((-32, -32), (32, 32))
  magic := [0x89, 0x49, 0x56, 0x47]
  midViewBox := 0
  encodeNatural := fun n => [1, n % 256]
  encodeReal := fun f => [2, (f % 256).toNat]
  encodeCoordinate := fun f => [3, (f % 256).toNat]
  encodeZeroToOne := fun f => [4, (f % 256).toNat]

/-- The default metadata in the sample environment. -/
def sampleMetadata : Metadata sampleEnv :=
  { ViewBox := DefaultViewBox sampleEnv, Palette := [] }

/-- A freshly reset encoder in the sample environment: what Reset leaves for the
default metadata. -/
def sampleEncoder : Encoder sampleEnv :=
  { buf := [0x89, 0x49, 0x56, 0x47, 1, 0]
    altBuf := []
    metadata := sampleMetadata
    err := none
    mode := Mode.modeStyling
    drawOp := 0
    drawArgs := []
    cSel := 0
    nSel := 0
    lod0 := (0 : Int)
    lod1 := (2 ^ 128 : Int) }

/-- The sample encoder after StartPath(7, 0, 0): the out-of-range adjustment has
latched an error. -/
def sampleFailed : Encoder sampleEnv := StartPath 7 (0 : Int) (0 : Int) sampleEncoder

/-- The sample encoder after StartPath(0, 0, 0): it is in Drawing mode. -/
def sampleDrawing : Encoder sampleEnv := StartPath 0 (0 : Int) (0 : Int) sampleEncoder

/-- Metadata of the sample environment with the view box (0, 0) - (1, 1), which is
not the default one, and the default palette. -/
def sampleViewBoxMetadata : Metadata sampleEnv :=
  { ViewBox := { Min := ((0 : Int), (0 : Int)), Max := ((1 : Int), (1 : Int)) }, Palette := [] }

/-- Metadata of the sample environment with the default view box and a palette
that is not the default one. -/
def samplePaletteMetadata : Metadata sampleEnv :=
  { ViewBox := DefaultViewBox sampleEnv, Palette := [1] }

/-- The 33 tuples (0, 0), (1, 1), ..., (32, 32). -/
def sampleTuples : List (List sampleEnv.F32) :=
  (List.range 33).map (fun i => [(i : Int), (i : Int)])

/-- The 33 calls AbsLineTo(0, 0), AbsLineTo(1, 1), ..., AbsLineTo(32, 32). -/
def sampleCalls : List (Call sampleEnv) :=
  (List.range 33).map (fun i => Call.AbsLineTo (i : Int) (i : Int))

/-- The sample encoder inside a path, with the 33 tuples (0, 0), (1, 1), ...,
(32, 32) of the operation 'L' pending. -/
def samplePending : Encoder sampleEnv :=
  { sampleDrawing with
    drawOp := 76
    drawArgs := (List.range 33).flatMap (fun i => [(i : Int), (i : Int)]) }

/-! ## Theorems -/

/-! ### The loops of flushDrawOps -/

/-- Indexing past a prefix reads the rest of the list. -/
theorem getElem?_append_add {α : Type} (pre l : List α) (k : Nat) :
    (pre ++ l)[pre.length + k]? = l[k]? := by
  rw [List.getElem?_append_right (by omega)]
  simp

/-- The plain inner loop reads the coordinates xs that follow the prefix pre and
appends their encodings. -/
theorem coordLoop_spec (xs : List E.F32) : ∀ (pre post : List E.F32) (buf : List Nat),
    coordLoop (pre ++ (xs ++ post)) xs.length pre.length buf
      = Except.ok (buf ++ xs.flatMap E.encodeCoordinate, pre.length + xs.length) := by
  induction xs with
  | nil => intro pre post buf; simp [coordLoop]
  | cons x xs ih =>
    intro pre post buf
    have hx : (pre ++ (x :: xs ++ post))[pre.length]? = some x := by
      have := getElem?_append_add pre (x :: xs ++ post) 0
      simpa using this
    have h2 := ih (pre ++ [x]) post (buf ++ E.encodeCoordinate x)
    simp only [List.append_assoc, List.singleton_append, List.length_append,
      List.length_singleton] at h2
    simp only [List.length_cons, coordLoop, hx, h2, List.flatMap_cons, List.append_assoc]
    rw [show pre.length + (xs.length + 1) = pre.length + 1 + xs.length by omega]
    simpa using h2

/-- The arc encoding of a six-element tuple, for either arc operation. -/
theorem encodeTuple_arc (drawOp : Nat) (harc : drawOp = 65 ∨ drawOp = 97)
    (a0 a1 a2 a3 a4 a5 : E.F32) :
    encodeTuple drawOp [a0, a1, a2, a3, a4, a5] =
      E.encodeCoordinate a0 ++ E.encodeCoordinate a1 ++ E.encodeZeroToOne a2
        ++ E.encodeNatural (E.toUInt32 a3) ++ E.encodeCoordinate a4 ++ E.encodeCoordinate a5 := by
  simp [encodeTuple, harc]

/-- A list of length six is a literal of six elements. -/
theorem length_six {α : Type} (t : List α) (h : t.length = 6) :
    ∃ a0 a1 a2 a3 a4 a5, t = [a0, a1, a2, a3, a4, a5] := by
  match t, h with
  | [a0, a1, a2, a3, a4, a5], _ => exact ⟨a0, a1, a2, a3, a4, a5, rfl⟩

/-- The arc inner loop reads the six-argument tuples ts that follow the prefix pre
and appends their arc encodings. -/
theorem arcLoop_spec (drawOp : Nat) (harc : drawOp = 65 ∨ drawOp = 97)
    (ts : List (List E.F32)) :
    ∀ (pre post : List E.F32) (buf : List Nat), (∀ t ∈ ts, t.length = 6) →
    arcLoop (pre ++ (ts.flatten ++ post)) ts.length pre.length buf
      = Except.ok (buf ++ ts.flatMap (encodeTuple drawOp), pre.length + ts.flatten.length) := by
  induction ts with
  | nil => intro pre post buf _; simp [arcLoop]
  | cons t ts ih =>
    intro pre post buf hlen
    obtain ⟨a0, a1, a2, a3, a4, a5, rfl⟩ := length_six t (hlen t (by simp))
    have h2 := ih (pre ++ [a0, a1, a2, a3, a4, a5]) post
      (buf ++ encodeTuple drawOp [a0, a1, a2, a3, a4, a5])
      (fun t ht => hlen t (by simp [ht]))
    have hargs : pre ++ (([a0, a1, a2, a3, a4, a5] :: ts).flatten ++ post)
        = pre ++ (a0 :: a1 :: a2 :: a3 :: a4 :: a5 :: (ts.flatten ++ post)) := by simp
    have hargs2 : pre ++ [a0, a1, a2, a3, a4, a5] ++ (ts.flatten ++ post)
        = pre ++ (a0 :: a1 :: a2 :: a3 :: a4 :: a5 :: (ts.flatten ++ post)) := by simp
    rw [hargs2, encodeTuple_arc drawOp harc] at h2
    simp only [List.length_cons, arcLoop, hargs, getElem?_append_add]
    simp only [List.getElem?_cons_succ, List.getElem?_cons_zero]
    simp only [List.length_append, List.length_cons, List.length_nil] at h2
    simp only [List.flatMap_cons, encodeTuple_arc drawOp harc, List.flatten_cons,
      List.length_append, List.length_cons, List.length_nil]
    simpa [Nat.add_assoc] using h2


/-! ### Chunks -/

/-- The chunks put together give the list back. -/
theorem specChunksAux_flatten {α : Type} (k : Nat) (hk : 0 < k) :
    ∀ (fuel : Nat) (xs : List α), xs.length ≤ fuel → (specChunksAux k fuel xs).flatten = xs := by
  intro fuel
  induction fuel with
  | zero => intro xs h; cases xs <;> simp_all [specChunksAux]
  | succ fuel ih =>
    intro xs h
    cases xs with
    | nil => simp [specChunksAux]
    | cons x xs =>
      simp only [specChunksAux, List.flatten_cons]
      rw [ih _ (by simp only [List.length_drop, List.length_cons] at h ⊢; omega)]
      exact List.take_append_drop k (x :: xs)

/-- Every chunk holds between 1 and k elements. -/
theorem specChunksAux_length_mem {α : Type} (k : Nat) (hk : 0 < k) :
    ∀ (fuel : Nat) (xs : List α), ∀ g ∈ specChunksAux k fuel xs, 1 ≤ g.length ∧ g.length ≤ k := by
  intro fuel
  induction fuel with
  | zero => intro xs g hg; simp [specChunksAux] at hg
  | succ fuel ih =>
    intro xs g hg
    cases xs with
    | nil => simp [specChunksAux] at hg
    | cons x xs =>
      simp only [specChunksAux, List.mem_cons] at hg
      rcases hg with rfl | hg
      · simp only [List.length_take, List.length_cons]; omega
      · exact ih _ g hg

/-- There are ceil(n / k) chunks. -/
theorem specChunksAux_length {α : Type} (k : Nat) (hk : 0 < k) :
    ∀ (fuel : Nat) (xs : List α), xs.length ≤ fuel →
      (specChunksAux k fuel xs).length = (xs.length + k - 1) / k := by
  intro fuel
  induction fuel with
  | zero =>
    intro xs h
    have : xs = [] := List.length_eq_zero.mp (by omega)
    subst this
    simp only [specChunksAux, List.length_nil, Nat.zero_add]
    exact (Nat.div_eq_of_lt (by omega)).symm
  | succ fuel ih =>
    intro xs h
    cases xs with
    | nil =>
      simp only [specChunksAux, List.length_nil, Nat.zero_add]
      exact (Nat.div_eq_of_lt (by omega)).symm
    | cons x xs =>
      simp only [specChunksAux, List.length_cons]
      rw [ih _ (by simp only [List.length_drop, List.length_cons] at h ⊢; omega)]
      simp only [List.length_drop, List.length_cons]
      by_cases hle : xs.length + 1 ≤ k
      · rw [show xs.length + 1 - k + k - 1 = k - 1 by omega, Nat.div_eq_of_lt (by omega)]
        have : xs.length + 1 + k - 1 = (xs.length) + k := by omega
        rw [this, Nat.add_div_right _ hk, Nat.div_eq_of_lt (by omega)]
      · rw [show xs.length + 1 + k - 1 = (xs.length + 1 - k + k - 1) + k by omega,
          Nat.add_div_right _ hk]

/-- Every chunk but the last holds k elements. -/
theorem specChunksAux_dropLast {α : Type} (k : Nat) :
    ∀ (fuel : Nat) (xs : List α), ∀ g ∈ (specChunksAux k fuel xs).dropLast, g.length = k := by
  intro fuel
  induction fuel with
  | zero => intro xs g hg; simp [specChunksAux] at hg
  | succ fuel ih =>
    intro xs g hg
    cases xs with
    | nil => simp [specChunksAux] at hg
    | cons x xs =>
      simp only [specChunksAux] at hg
      cases hrest : specChunksAux k fuel (List.drop k (x :: xs)) with
      | nil => simp [hrest] at hg
      | cons r rs =>
        rw [hrest, List.dropLast_cons₂, List.mem_cons] at hg
        rcases hg with rfl | hg
        · have hne : List.drop k (x :: xs) ≠ [] := by
            intro h0
            rw [h0] at hrest
            cases fuel <;> simp [specChunksAux] at hrest
          have : k < (x :: xs).length := by
            by_contra hc
            exact hne (List.drop_eq_nil_of_le (by omega))
          simp only [List.length_take]
          omega
        · exact ih _ g (by rw [hrest]; exact hg)

/-- When k divides the length, every chunk holds k elements. -/
theorem specChunksAux_of_dvd {α : Type} (k : Nat) :
    ∀ (fuel : Nat) (xs : List α), k ∣ xs.length →
      ∀ g ∈ specChunksAux k fuel xs, g.length = k := by
  intro fuel
  induction fuel with
  | zero => intro xs _ g hg; simp [specChunksAux] at hg
  | succ fuel ih =>
    intro xs hd g hg
    cases xs with
    | nil => simp [specChunksAux] at hg
    | cons x xs =>
      have hle : k ≤ (x :: xs).length := Nat.le_of_dvd (by simp) hd
      simp only [specChunksAux, List.mem_cons] at hg
      rcases hg with rfl | hg
      · simp only [List.length_take]; omega
      · refine ih _ ?_ g hg
        rw [List.length_drop]
        exact (Nat.dvd_sub' hd (dvd_refl k))

/-- Tuples of k elements each: the flat list has k elements per tuple. -/
theorem flatten_length_uniform {α : Type} (k : Nat) (g : List (List α))
    (h : ∀ t ∈ g, t.length = k) : g.flatten.length = g.length * k := by
  induction g with
  | nil => simp
  | cons t g ih =>
    simp only [List.flatten_cons, List.length_append, List.length_cons]
    rw [ih (fun t ht => h t (by simp [ht])), h t (by simp), Nat.succ_mul]
    omega

/-- For a plain operation the encoding of tuples is that of their coordinates. -/
theorem flatMap_encodeTuple_plain (drawOp : Nat) (h : ¬ (drawOp = 65 ∨ drawOp = 97))
    (g : List (List E.F32)) :
    g.flatMap (encodeTuple drawOp) = g.flatten.flatMap E.encodeCoordinate := by
  induction g with
  | nil => simp
  | cons t g ih => simp [List.flatMap_cons, ih, encodeTuple, h, List.flatMap_append]

/-- Either inner loop reads the tuples g that follow the prefix pre and appends
their encodings. -/
theorem inner_spec (drawOp : Nat) (op : DrawOp)
    (harc : drawOp = 65 ∨ drawOp = 97 → op.nArgs = 6)
    (g : List (List E.F32)) (pre post : List E.F32) (buf : List Nat)
    (hlen : ∀ t ∈ g, t.length = op.nArgs) :
    (if drawOp = 65 ∨ drawOp = 97 then arcLoop (pre ++ (g.flatten ++ post)) g.length pre.length buf
      else coordLoop (pre ++ (g.flatten ++ post)) (g.length * op.nArgs) pre.length buf)
      = Except.ok (buf ++ g.flatMap (encodeTuple drawOp), pre.length + g.flatten.length) := by
  by_cases h : drawOp = 65 ∨ drawOp = 97
  · rw [if_pos h]
    exact arcLoop_spec drawOp h g pre post buf (fun t ht => by rw [hlen t ht, harc h])
  · rw [if_neg h, ← flatten_length_uniform op.nArgs g hlen, flatMap_encodeTuple_plain drawOp h]
    exact coordLoop_spec g.flatten pre post buf

/-- The opcode group as flushDrawOps computes it, with its uint8 arithmetic. -/
theorem flushLoop_spec (drawOp : Nat) (op : DrawOp) (hk : 0 < op.maxRepCount)
    (harc : drawOp = 65 ∨ drawOp = 97 → op.nArgs = 6) :
    ∀ (fuel : Nat) (ts : List (List E.F32)) (pre post : List E.F32) (buf : List Nat),
    (∀ t ∈ ts, t.length = op.nArgs) → ts.length ≤ fuel →
    flushLoop drawOp op (pre ++ (ts.flatten ++ post)) fuel pre.length ts.length buf
      = Except.ok (buf ++ (specChunksAux op.maxRepCount fuel ts).flatMap
          (fun g => (op.opcodeBase + g.length % 256 + 255) % 256
            :: g.flatMap (encodeTuple drawOp))) := by
  intro fuel
  induction fuel with
  | zero =>
    intro ts pre post buf _ hf
    have : ts = [] := List.length_eq_zero.mp (by omega)
    subst this
    simp [flushLoop, specChunksAux]
  | succ fuel ih =>
    intro ts pre post buf hlen hf
    cases ts with
    | nil => simp [flushLoop, specChunksAux]
    | cons t ts =>
      have hm : (if (t :: ts).length > op.maxRepCount then op.maxRepCount else (t :: ts).length)
          = ((t :: ts).take op.maxRepCount).length := by
        rw [List.length_take]
        split <;> omega
      have hargs : pre ++ ((t :: ts).flatten ++ post)
          = pre ++ (((t :: ts).take op.maxRepCount).flatten
              ++ (((t :: ts).drop op.maxRepCount).flatten ++ post)) := by
        have hfl : (t :: ts).flatten = ((t :: ts).take op.maxRepCount).flatten
            ++ ((t :: ts).drop op.maxRepCount).flatten := by
          rw [← List.flatten_append, List.take_append_drop]
        rw [hfl, List.append_assoc]
      have hargs2 : pre ++ ((t :: ts).flatten ++ post)
          = (pre ++ ((t :: ts).take op.maxRepCount).flatten)
              ++ (((t :: ts).drop op.maxRepCount).flatten ++ post) := by
        rw [hargs, List.append_assoc]
      have hin := inner_spec drawOp op harc ((t :: ts).take op.maxRepCount) pre
        (((t :: ts).drop op.maxRepCount).flatten ++ post)
        (buf ++ [(op.opcodeBase + ((t :: ts).take op.maxRepCount).length % 256 + 255) % 256])
        (fun u hu => hlen u (List.mem_of_mem_take hu))
      have hrec := ih ((t :: ts).drop op.maxRepCount)
        (pre ++ ((t :: ts).take op.maxRepCount).flatten) post
        (buf ++ [(op.opcodeBase + ((t :: ts).take op.maxRepCount).length % 256 + 255) % 256]
          ++ ((t :: ts).take op.maxRepCount).flatMap (encodeTuple drawOp))
        (fun u hu => hlen u (List.mem_of_mem_drop hu))
        (by simp only [List.length_drop, List.length_cons] at hf ⊢; omega)
      have hpos : (t :: ts).length > 0 := by simp
      rw [← hargs2, List.length_append] at hrec
      have hn : (t :: ts).length - ((t :: ts).take op.maxRepCount).length
          = ((t :: ts).drop op.maxRepCount).length := by
        rw [List.length_take, List.length_drop]; omega
      rw [← hargs] at hin
      simp only [flushLoop, hpos, if_true, hm, hin, hn, hrec, specChunksAux, List.flatMap_cons]
      simp

/-! ### The table and flushDrawOps -/

/-- A successful lookup returns an entry of the list. -/
theorem mem_of_lookup {β : Type} (c : Nat) (b : β) :
    ∀ (l : List (Nat × β)), l.lookup c = some b → (c, b) ∈ l := by
  intro l
  induction l with
  | nil => intro h; simp [List.lookup] at h
  | cons p l ih =>
    intro h
    obtain ⟨k, v⟩ := p
    rw [List.lookup_cons] at h
    by_cases hk : c = k
    · subst hk
      simp at h
      simp [h]
    · have : (c == k) = false := by simpa using hk
      rw [this] at h
      exact List.mem_cons_of_mem _ (ih h)

/-- An entry of drawOps is listed in the literal or is zero. -/
theorem drawOps_mem (c : Nat) : (c, drawOps c) ∈ drawOpsTable ∨ drawOps c = ⟨0, 0, 0⟩ := by
  unfold drawOps
  cases h : drawOpsTable.lookup c with
  | none => exact Or.inr rfl
  | some op => exact Or.inl (mem_of_lookup c op _ h)

/-- The listed entries with arguments: the repeat count is between 1 and 32, the
opcodes of a full run stay below 256, the arcs take six arguments. -/
theorem drawOpsTable_facts : ∀ p ∈ drawOpsTable, p.2.nArgs ≠ 0 →
    0 < p.2.maxRepCount ∧ p.2.maxRepCount ≤ 32 ∧ p.2.opcodeBase + p.2.maxRepCount ≤ 256 ∧
    (p.1 = 65 ∨ p.1 = 97 → p.2.nArgs = 6) ∧ p.1 ≠ 0 := by
  decide

/-- The facts of drawOpsTable_facts for the array drawOps. -/
theorem drawOps_facts (c : Nat) (h : (drawOps c).nArgs ≠ 0) :
    0 < (drawOps c).maxRepCount ∧ (drawOps c).maxRepCount ≤ 32 ∧
    (drawOps c).opcodeBase + (drawOps c).maxRepCount ≤ 256 ∧
    (c = 65 ∨ c = 97 → (drawOps c).nArgs = 6) ∧ c ≠ 0 := by
  rcases drawOps_mem c with hm | hz
  · exact drawOpsTable_facts _ hm h
  · rw [hz] at h; exact absurd rfl h

/-- Two functions that agree on the elements of a list give the same flatMap. -/
theorem flatMap_congr_mem {α β : Type} (l : List α) (f f2 : α → List β)
    (h : ∀ a ∈ l, f a = f2 a) : l.flatMap f = l.flatMap f2 := by
  induction l with
  | nil => rfl
  | cons a l ih =>
    rw [List.flatMap_cons, List.flatMap_cons, h a (by simp), ih (fun b hb => h b (by simp [hb]))]

/-- The number of complete tuples in a list of tuples followed by a shorter rest. -/
theorem uniform_div {α : Type} (k : Nat) (ts : List (List α)) (post : List α)
    (hlen : ∀ t ∈ ts, t.length = k) (hpost : post.length < k) :
    (ts.flatten ++ post).length / k = ts.length := by
  rw [List.length_append, flatten_length_uniform k ts hlen]
  apply Nat.div_eq_of_lt_le
  · rw [Nat.mul_comm]; omega
  · rw [Nat.succ_mul]; omega

/-- With no operation pending flushDrawOps returns at once. -/
theorem flushDrawOps_none (e : Encoder E) (h : e.drawOp = 0) : flushDrawOps e = Except.ok e := by
  simp [flushDrawOps, h]

/-- For an operation without arguments flushDrawOps appends the one opcode. -/
theorem flushDrawOps_noArgs (e : Encoder E) (h0 : e.drawOp ≠ 0)
    (h : (drawOps e.drawOp).nArgs = 0) :
    flushDrawOps e = Except.ok
      { e with buf := e.buf ++ [(drawOps e.drawOp).opcodeBase], drawOp := 0, drawArgs := [] } := by
  simp [flushDrawOps, h0, h]

/-- For an operation with arguments flushDrawOps returns and appends the batches
of the complete tuples pending. -/
theorem flushDrawOps_spec (e : Encoder E) (ts : List (List E.F32)) (post : List E.F32)
    (h : (drawOps e.drawOp).nArgs ≠ 0) (hargs : e.drawArgs = ts.flatten ++ post)
    (hlen : ∀ t ∈ ts, t.length = (drawOps e.drawOp).nArgs)
    (hpost : post.length < (drawOps e.drawOp).nArgs) :
    flushDrawOps e = Except.ok
      { e with buf := e.buf ++ specFlush e.drawOp ts, drawOp := 0, drawArgs := [] } := by
  obtain ⟨hk, h32, hb, harc, h0⟩ := drawOps_facts e.drawOp h
  have hn := uniform_div _ ts post hlen hpost
  have hloop := flushLoop_spec e.drawOp (drawOps e.drawOp) hk harc ts.length ts [] post e.buf hlen
    (le_refl _)
  simp only [List.nil_append, List.length_nil] at hloop
  have hgroups : (specChunksAux (drawOps e.drawOp).maxRepCount ts.length ts).flatMap
      (fun g => ((drawOps e.drawOp).opcodeBase + g.length % 256 + 255) % 256
        :: g.flatMap (encodeTuple e.drawOp)) = specFlush e.drawOp ts := by
    unfold specFlush specChunks
    apply flatMap_congr_mem
    intro g hg
    have := specChunksAux_length_mem _ hk _ _ g hg
    unfold specGroup
    congr 1
    omega
  rw [hgroups] at hloop
  simp only [flushDrawOps, h0, if_false, h, hargs, hn, hloop]
  simp

/-- From every state flushDrawOps returns, and it only appends to the buffer and
clears the pending run. -/
theorem flushDrawOps_total (e : Encoder E) :
    ∃ out, flushDrawOps e = Except.ok
      (if e.drawOp = 0 then e
        else { e with buf := e.buf ++ out, drawOp := 0, drawArgs := [] }) := by
  by_cases h0 : e.drawOp = 0
  · exact ⟨[], by simp [flushDrawOps_none e h0, h0]⟩
  · by_cases h : (drawOps e.drawOp).nArgs = 0
    · exact ⟨_, by rw [flushDrawOps_noArgs e h0 h, if_neg h0]⟩
    · have hk := Nat.pos_of_ne_zero h
      have hle := Nat.div_mul_le_self e.drawArgs.length (drawOps e.drawOp).nArgs
      have hlt := Nat.lt_div_mul_add hk (a := e.drawArgs.length)
      have hhead : (e.drawArgs.take
          (e.drawArgs.length / (drawOps e.drawOp).nArgs * (drawOps e.drawOp).nArgs)).length
          = e.drawArgs.length / (drawOps e.drawOp).nArgs * (drawOps e.drawOp).nArgs := by
        rw [List.length_take]
        omega
      have hspec := flushDrawOps_spec e
        (specChunksAux (drawOps e.drawOp).nArgs e.drawArgs.length (e.drawArgs.take
          (e.drawArgs.length / (drawOps e.drawOp).nArgs * (drawOps e.drawOp).nArgs)))
        (e.drawArgs.drop
          (e.drawArgs.length / (drawOps e.drawOp).nArgs * (drawOps e.drawOp).nArgs)) h
        (by
          rw [specChunksAux_flatten _ hk _ _ (by rw [hhead]; exact hle)]
          exact (List.take_append_drop _ _).symm)
        (specChunksAux_of_dvd _ _ _ (by rw [hhead]; exact Dvd.intro_left _ rfl))
        (by rw [List.length_drop]; omega)
      exact ⟨_, by rw [hspec, if_neg h0]⟩

/-! ### The guards of the methods -/

/-- The encoder with a latched error returns unchanged from draw. -/
theorem draw_of_err (c : Nat) (a0 a1 a2 a3 a4 a5 : E.F32) (e : Encoder E)
    (h : e.err ≠ none) : draw c a0 a1 a2 a3 a4 a5 e = Except.ok e := by
  simp [draw, h]

/-- A call on an encoder with a latched error returns the encoder unchanged. -/
theorem apply_of_err (e : Encoder E) (c : Call E) (h : e.err ≠ none) :
    c.apply e = Except.ok e := by
  cases c <;>
    simp [Call.apply, SetCSel, SetNSel, SetLOD, StartPath, AbsHLineTo, RelHLineTo, AbsVLineTo,
      RelVLineTo, AbsLineTo, RelLineTo, AbsSmoothQuadTo, RelSmoothQuadTo, AbsQuadTo, RelQuadTo,
      AbsSmoothCubeTo, RelSmoothCubeTo, AbsCubeTo, RelCubeTo, ClosePathEndPath,
      ClosePathAbsMoveTo, ClosePathRelMoveTo, AbsArcTo, RelArcTo, arcTo, draw_of_err, h]

/-- A drawing call in Styling mode, no error latched: draw latches its error. -/
theorem draw_of_styling (c : Nat) (a0 a1 a2 a3 a4 a5 : E.F32) (e : Encoder E)
    (h : e.err = none) (hm : e.mode = Mode.modeStyling) :
    draw c a0 a1 a2 a3 a4 a5 e
      = Except.ok { e with err := some Error.errDrawingOpsUsedInStylingMode } := by
  simp [draw, h, hm]

/-- A styling method in Drawing mode, no error latched, only latches its error. -/
theorem apply_styling_in_drawing (e : Encoder E) (c : Call E) (h : e.err = none)
    (hm : e.mode = Mode.modeDrawing) (hs : c.isStyling = true) :
    c.apply e = Except.ok { e with err := some Error.errStylingOpsUsedInDrawingMode } := by
  cases c <;> simp [Call.isStyling] at hs <;>
    simp [Call.apply, SetCSel, SetNSel, SetLOD, StartPath, h, hm]

/-- A drawing method in Styling mode, no error latched, only latches its error. -/
theorem apply_drawing_in_styling (e : Encoder E) (c : Call E) (h : e.err = none)
    (hm : e.mode = Mode.modeStyling) (hd : c.isDrawing = true) :
    c.apply e = Except.ok { e with err := some Error.errDrawingOpsUsedInStylingMode } := by
  cases c <;> simp [Call.isDrawing, Call.isStyling] at hd <;>
    simp [Call.apply, AbsHLineTo, RelHLineTo, AbsVLineTo,
      RelVLineTo, AbsLineTo, RelLineTo, AbsSmoothQuadTo, RelSmoothQuadTo, AbsQuadTo, RelQuadTo,
      AbsSmoothCubeTo, RelSmoothCubeTo, AbsCubeTo, RelCubeTo, ClosePathEndPath,
      ClosePathAbsMoveTo, ClosePathRelMoveTo, AbsArcTo, RelArcTo, arcTo,
      draw_of_styling, h, hm]

/-! ### Drawing calls -/

/-- The flags as arcTo packs them are the sum 1 for largeArc plus 2 for sweep. -/
theorem arcFlags_eq (l s : Bool) :
    (if s then (if l then (0 : Nat) ||| 0x01 else 0) ||| 0x02 else (if l then (0 : Nat) ||| 0x01 else 0))
      = arcFlags l s := by
  cases l <;> cases s <;> decide

/-- A drawing method, past the two guards of draw: the pending run is flushed if
its operation differs, the operation and the tuple of the call are recorded, and
the three closing operations flush at once. -/
theorem apply_drawing (c : Call E) (e : Encoder E) (hd : c.isDrawing = true)
    (h : e.err = none) (hm : e.mode = Mode.modeDrawing) :
    c.apply e =
      match (if e.drawOp ≠ c.drawOp then flushDrawOps e else Except.ok e) with
      | Except.error f => Except.error f
      | Except.ok e1 =>
        if c.drawOp = 90 then
          flushDrawOps { e1 with
            drawOp := c.drawOp, drawArgs := e1.drawArgs ++ c.tuple, mode := Mode.modeStyling }
        else if c.drawOp = 89 ∨ c.drawOp = 121 then
          flushDrawOps { e1 with drawOp := c.drawOp, drawArgs := e1.drawArgs ++ c.tuple }
        else Except.ok { e1 with drawOp := c.drawOp, drawArgs := e1.drawArgs ++ c.tuple } := by
  cases c <;> simp [Call.isDrawing, Call.isStyling] at hd <;>
    simp only [Call.apply, AbsHLineTo, RelHLineTo, AbsVLineTo,
        RelVLineTo, AbsLineTo, RelLineTo, AbsSmoothQuadTo, RelSmoothQuadTo, AbsQuadTo, RelQuadTo,
        AbsSmoothCubeTo, RelSmoothCubeTo, AbsCubeTo, RelCubeTo, ClosePathEndPath,
        ClosePathAbsMoveTo, ClosePathRelMoveTo, AbsArcTo, RelArcTo, arcTo, arcFlags_eq,
        draw, h, hm, Call.drawOp, Call.tuple] <;>
    split <;> simp_all <;> rfl

/-- A drawing method in Drawing mode with no error latched returns, latches no
error, only appends to the buffer, and leaves the mode Drawing unless it is
ClosePathEndPath, which sets it to Styling. -/
theorem apply_drawing_frame (c : Call E) (e : Encoder E) (hd : c.isDrawing = true)
    (h : e.err = none) (hm : e.mode = Mode.modeDrawing) :
    ∃ e2, c.apply e = Except.ok e2 ∧ e2.err = none ∧
      e2.mode = (if c.drawOp = 90 then Mode.modeStyling else Mode.modeDrawing) ∧
      (∃ out, e2.buf = e.buf ++ out) ∧
      e2.cSel = e.cSel ∧ e2.nSel = e.nSel ∧ e2.lod0 = e.lod0 ∧ e2.lod1 = e.lod1 ∧
      e2.metadata = e.metadata := by
  rw [apply_drawing c e hd h hm]
  obtain ⟨out1, h1⟩ := flushDrawOps_total e
  have hfirst : ∃ e1, (if e.drawOp ≠ c.drawOp then flushDrawOps e else Except.ok e)
      = Except.ok e1 ∧ e1.err = none ∧ e1.mode = Mode.modeDrawing ∧
      (∃ out, e1.buf = e.buf ++ out) ∧ e1.cSel = e.cSel ∧ e1.nSel = e.nSel ∧
      e1.lod0 = e.lod0 ∧ e1.lod1 = e.lod1 ∧ e1.metadata = e.metadata := by
    by_cases hop : e.drawOp ≠ c.drawOp
    · rw [if_pos hop, h1]
      by_cases h0 : e.drawOp = 0
      · rw [if_pos h0]; exact ⟨e, rfl, h, hm, ⟨[], by simp⟩, rfl, rfl, rfl, rfl, rfl⟩
      · rw [if_neg h0]; exact ⟨_, rfl, h, hm, ⟨out1, rfl⟩, rfl, rfl, rfl, rfl, rfl⟩
    · rw [if_neg hop]; exact ⟨e, rfl, h, hm, ⟨[], by simp⟩, rfl, rfl, rfl, rfl, rfl⟩
  obtain ⟨e1, he1, herr1, hmode1, ⟨o1, hbuf1⟩, hc1, hn1, hl01, hl11, hmd1⟩ := hfirst
  rw [he1]
  simp only
  by_cases hz : c.drawOp = 90
  · rw [if_pos hz]
    obtain ⟨out2, h2⟩ := flushDrawOps_total
      { e1 with drawOp := c.drawOp, drawArgs := e1.drawArgs ++ c.tuple, mode := Mode.modeStyling }
    rw [h2]
    simp only [hz]
    refine ⟨_, rfl, ?_⟩
    simp only [show ¬ (90 = 0) by decide, if_false, if_true]
    exact ⟨herr1, trivial, ⟨o1 ++ out2, by rw [hbuf1, List.append_assoc]⟩, hc1, hn1, hl01, hl11,
      hmd1⟩
  · rw [if_neg hz]
    by_cases hy : c.drawOp = 89 ∨ c.drawOp = 121
    · rw [if_pos hy]
      obtain ⟨out2, h2⟩ := flushDrawOps_total
        { e1 with drawOp := c.drawOp, drawArgs := e1.drawArgs ++ c.tuple }
      rw [h2]
      have h0 : ¬ (c.drawOp = 0) := by omega
      simp only [h0, if_false]
      exact ⟨_, rfl, herr1, by rw [if_neg hz]; exact hmode1, ⟨o1 ++ out2, by simp [hbuf1]⟩, hc1, hn1, hl01, hl11,
        hmd1⟩
    · rw [if_neg hy]
      exact ⟨_, rfl, herr1, by rw [if_neg hz]; exact hmode1, ⟨o1, hbuf1⟩, hc1, hn1, hl01, hl11, hmd1⟩

/-- Every call returns: no styling or drawing method faults, from any state. -/
theorem apply_total (c : Call E) (e : Encoder E) : ∃ e2, c.apply e = Except.ok e2 := by
  by_cases hs : c.isStyling = true
  · cases c <;> simp [Call.isStyling] at hs <;> exact ⟨_, rfl⟩
  · have hd : c.isDrawing = true := by simpa [Call.isDrawing] using hs
    by_cases h : e.err = none
    · cases hm : e.mode with
      | modeStyling => exact ⟨_, apply_drawing_in_styling e c h hm hd⟩
      | modeDrawing =>
        obtain ⟨e2, he2, _⟩ := apply_drawing_frame c e hd h hm
        exact ⟨e2, he2⟩
    · exact ⟨e, apply_of_err e c h⟩

/-! ### Sequences of calls and the mode -/

/-- Running two sequences in a row. -/
theorem run_append (a b : List (Call E)) : ∀ (e : Encoder E),
    run (a ++ b) e =
      match run a e with
      | Except.error f => Except.error f
      | Except.ok e1 => run b e1 := by
  induction a with
  | nil => intro e; rfl
  | cons c a ih =>
    intro e
    simp only [List.cons_append, run]
    cases c.apply e with
    | error f => rfl
    | ok e1 => exact ih e1

/-- Running a sequence and one more call. -/
theorem run_snoc (cs : List (Call E)) (c : Call E) (e0 e1 : Encoder E)
    (h : run cs e0 = Except.ok e1) : run (cs ++ [c]) e0 = c.apply e1 := by
  rw [run_append, h]
  simp only [run]
  cases c.apply e1 <;> rfl

/-- All calls return, so every sequence of calls runs to its end. -/
theorem run_total (cs : List (Call E)) : ∀ (e : Encoder E), ∃ e2, run cs e = Except.ok e2 := by
  induction cs with
  | nil => intro e; exact ⟨e, rfl⟩
  | cons c cs ih =>
    intro e
    obtain ⟨e1, h1⟩ := apply_total c e
    obtain ⟨e2, h2⟩ := ih e1
    exact ⟨e2, by simp only [run, h1, h2]⟩

/-- Success of a call that returns: no error before and none after. -/
theorem succeeds_iff (c : Call E) (e e2 : Encoder E) (h : c.apply e = Except.ok e2) :
    c.succeeds e = true ↔ e.err = none ∧ e2.err = none := by
  simp [Call.succeeds, h]

/-- A call that does not succeed leaves the mode as it is. -/
theorem mode_of_not_succeeds (c : Call E) (e e2 : Encoder E) (h : c.apply e = Except.ok e2)
    (hs : c.succeeds e = false) : e2.mode = e.mode := by
  by_cases herr : e.err = none
  · have h2 : e2.err ≠ none := by
      intro h2
      have := (succeeds_iff c e e2 h).2 ⟨herr, h2⟩
      rw [hs] at this; exact absurd this (by decide)
    by_cases hsty : c.isStyling = true
    · cases hm : e.mode with
      | modeDrawing =>
        rw [apply_styling_in_drawing e c herr hm hsty] at h
        cases h; exact hm
      | modeStyling =>
        cases c <;> simp [Call.isStyling] at hsty <;>
          simp only [Call.apply, SetCSel, SetNSel, SetLOD, StartPath, herr, hm] at h <;>
          simp at h
        · subst h; simp at h2
        · subst h; simp at h2
        · subst h; simp at h2
        · split at h
          · subst h; rfl
          · subst h; simp at h2
    · have hd : c.isDrawing = true := by simpa [Call.isDrawing] using hsty
      cases hm : e.mode with
      | modeStyling =>
        rw [apply_drawing_in_styling e c herr hm hd] at h
        cases h; exact hm
      | modeDrawing =>
        obtain ⟨e3, h3, herr3, _⟩ := apply_drawing_frame c e hd herr hm
        rw [h3] at h
        cases h
        exact absurd herr3 h2
  · rw [apply_of_err e c herr] at h
    cases h; rfl

/-- A call that succeeds sets the mode to Drawing if it is StartPath, to Styling if
it is ClosePathEndPath, and leaves it as it is otherwise. -/
theorem mode_of_succeeds (c : Call E) (e e2 : Encoder E) (h : c.apply e = Except.ok e2)
    (hs : c.succeeds e = true) :
    (∀ adj x y, c = Call.StartPath adj x y → e2.mode = Mode.modeDrawing) ∧
    (c = Call.ClosePathEndPath → e2.mode = Mode.modeStyling) ∧
    ((∀ adj x y, c ≠ Call.StartPath adj x y) → c ≠ Call.ClosePathEndPath → e2.mode = e.mode) := by
  obtain ⟨herr, herr2⟩ := (succeeds_iff c e e2 h).1 hs
  by_cases hsty : c.isStyling = true
  · cases hm : e.mode with
    | modeDrawing =>
      rw [apply_styling_in_drawing e c herr hm hsty] at h
      cases h; simp at herr2
    | modeStyling =>
      cases c <;> simp [Call.isStyling] at hsty <;>
        simp only [Call.apply, SetCSel, SetNSel, SetLOD, StartPath, herr, hm] at h <;>
        simp at h
      · subst h; simp [hm]
      · subst h; simp [hm]
      · subst h; simp [hm]
      · split at h
        · subst h; simp at herr2
        · subst h; simp
  · have hd : c.isDrawing = true := by simpa [Call.isDrawing] using hsty
    cases hm : e.mode with
    | modeStyling =>
      rw [apply_drawing_in_styling e c herr hm hd] at h
      cases h; simp at herr2
    | modeDrawing =>
      obtain ⟨e3, h3, _, hmode3, _⟩ := apply_drawing_frame c e hd herr hm
      rw [h3] at h
      cases h
      refine ⟨?_, ?_, ?_⟩
      · intro adj x y hc; subst hc; simp [Call.isStyling] at hsty
      · intro hc; subst hc; simpa [Call.drawOp] using hmode3
      · intro _ hz
        rw [hmode3, if_neg]
        cases c <;> simp [Call.drawOp]
        simp at hz

/-- The ways a list ending in c splits around an element x. -/
theorem snoc_eq_append_cons {α : Type} (cs pre post : List α) (c x : α)
    (h : cs ++ [c] = pre ++ x :: post) :
    (post = [] ∧ cs = pre ∧ c = x) ∨ (∃ post2, post = post2 ++ [c] ∧ cs = pre ++ x :: post2) := by
  rcases List.eq_nil_or_concat post with hp | ⟨post2, b, hp⟩
  · subst hp
    have h2 : cs ++ [c] = pre ++ [x] := h
    have := List.append_inj' h2 rfl
    exact Or.inl ⟨rfl, this.1, by simpa using this.2⟩
  · rw [List.concat_eq_append] at hp
    subst hp
    have h2 : cs ++ [c] = (pre ++ x :: post2) ++ [b] := by
      rw [h]; simp
    have := List.append_inj' h2 rfl
    have hb : c = b := by simpa using this.2
    subst hb
    exact Or.inr ⟨post2, rfl, this.1⟩

/-- From an encoder in Styling mode, the mode after a sequence of calls is Drawing
exactly when the sequence ends in a drawing window. -/
theorem mode_trace (e0 : Encoder E) (h0 : e0.mode = Mode.modeStyling) (cs : List (Call E)) :
    ∀ e, run cs e0 = Except.ok e → (e.mode = Mode.modeDrawing ↔ inDrawingWindow e0 cs) := by
  induction cs using List.reverseRecOn with
  | nil =>
    intro e he
    simp only [run] at he
    cases he
    constructor
    · intro h; rw [h0] at h; exact absurd h (by decide)
    · rintro ⟨pre, adj, x, y, post, ePre, hcs, _⟩
      simp at hcs
  | append_singleton cs c ih =>
    intro e he
    obtain ⟨e1, h1⟩ := run_total cs e0
    have hstep : c.apply e1 = Except.ok e := by rw [← run_snoc cs c e0 e1 h1]; exact he
    have ih1 := ih e1 h1
    -- the window of cs extends when c is not a successful ClosePathEndPath
    have extend : (c = Call.ClosePathEndPath → c.succeeds e1 = false) →
        inDrawingWindow e0 cs → inDrawingWindow e0 (cs ++ [c]) := by
      rintro hc ⟨pre, adj, x, y, post, ePre, hcs, hpre, hsp, hno⟩
      refine ⟨pre, adj, x, y, post ++ [c], ePre, by rw [hcs]; simp, hpre, hsp, ?_⟩
      intro post1 post2 eMid hsplit hmid
      rcases snoc_eq_append_cons post post1 post2 c _ hsplit with ⟨h2, hp, hcz⟩ | ⟨p2, h2, hp⟩
      · subst hp
        rw [← hcs, h1] at hmid
        cases hmid
        rw [← hcz]
        exact hc hcz
      · exact hno post1 p2 eMid hp hmid
    -- the window of cs ++ [c] restricts when c is not a successful StartPath
    have restrict : (∀ adj x y, c = Call.StartPath adj x y → c.succeeds e1 = false) →
        inDrawingWindow e0 (cs ++ [c]) → inDrawingWindow e0 cs := by
      rintro hc ⟨pre, adj, x, y, post, ePre, hcs, hpre, hsp, hno⟩
      rcases snoc_eq_append_cons cs pre post c _ hcs with ⟨h2, hp, hcz⟩ | ⟨p2, h2, hp⟩
      · subst hp
        rw [h1] at hpre
        cases hpre
        rw [← hcz, hc adj x y hcz] at hsp
        exact absurd hsp (by decide)
      · refine ⟨pre, adj, x, y, p2, ePre, hp, hpre, hsp, ?_⟩
        intro post1 post2 eMid hsplit hmid
        exact hno post1 (post2 ++ [c]) eMid (by rw [h2, hsplit]; simp) hmid
    cases hs : c.succeeds e1 with
    | false =>
      rw [mode_of_not_succeeds c e1 e hstep hs, ih1]
      exact ⟨extend (fun _ => hs), restrict (fun _ _ _ _ => hs)⟩
    | true =>
      obtain ⟨hsp, hz, hother⟩ := mode_of_succeeds c e1 e hstep hs
      by_cases hstart : ∃ adj x y, c = Call.StartPath adj x y
      · obtain ⟨adj, x, y, hc⟩ := hstart
        refine ⟨fun _ => ⟨cs, adj, x, y, [], e1, by rw [hc], h1, by rw [← hc]; exact hs, ?_⟩,
          fun _ => hsp adj x y hc⟩
        intro post1 post2 eMid hsplit
        simp at hsplit
      · have hns : ∀ adj x y, c ≠ Call.StartPath adj x y :=
          fun adj x y hc => hstart ⟨adj, x, y, hc⟩
        by_cases hzc : c = Call.ClosePathEndPath
        · constructor
          · intro hm; rw [hz hzc] at hm; exact absurd hm (by decide)
          · rintro ⟨pre, adj, x, y, post, ePre, hcs, hpre, hsp2, hno⟩
            rcases snoc_eq_append_cons cs pre post c _ hcs with ⟨h2, hp, hcz⟩ | ⟨p2, h2, hp⟩
            · exact absurd hcz (hns adj x y)
            · have := hno p2 [] e1 (by rw [h2, hzc]) (by rw [← hp]; exact h1)
              rw [← hzc, hs] at this
              exact absurd this (by decide)
        · rw [hother hns hzc, ih1]
          exact ⟨extend (fun h => absurd h hzc), restrict (fun adj x y h => absurd h (hns adj x y))⟩

/-! ### Reset and pending calls -/

/-- Reset for metadata equal to the defaults: every field of the encoder it leaves. -/
theorem Reset_of_default (e : Encoder E) (m : Metadata E)
    (hv : m.ViewBox.eq (DefaultViewBox E) = true)
    (hp : E.paletteEq m.Palette E.DefaultPalette = true) :
    Reset e m = Except.ok
      { buf := E.magic ++ E.encodeNatural 0
        altBuf := []
        metadata := m
        err := none
        mode := Mode.modeStyling
        drawOp := 0
        drawArgs := []
        cSel := 0
        nSel := 0
        lod0 := E.zero
        lod1 := E.positiveInfinity } := by
  simp [Reset, hv, hp]

/-- Reset, when it returns, leaves the mode Styling, no error, nothing pending. -/
theorem Reset_fields (e e2 : Encoder E) (m : Metadata E) (h : Reset e m = Except.ok e2) :
    e2.mode = Mode.modeStyling ∧ e2.err = none ∧ e2.drawOp = 0 ∧ e2.drawArgs = [] := by
  unfold Reset at h
  simp only at h
  split at h
  · cases h
  · cases h
    split <;> simp

/-- Reset returns whenever the palette is the default one. -/
theorem Reset_returns (e : Encoder E) (m : Metadata E)
    (hp : E.paletteEq m.Palette E.DefaultPalette = true) : ∃ e2, Reset e m = Except.ok e2 := by
  unfold Reset
  simp [hp]

/-- A drawing call whose operation is the pending one, or made with none pending,
and that is not one of the three closing calls, only records its tuple. -/
theorem apply_pending (c : Call E) (e : Encoder E) (hd : c.isDrawing = true)
    (h : e.err = none) (hm : e.mode = Mode.modeDrawing)
    (hop : e.drawOp = c.drawOp ∨ e.drawOp = 0)
    (hz : c.drawOp ≠ 90) (hy : c.drawOp ≠ 89) (hy2 : c.drawOp ≠ 121) :
    c.apply e = Except.ok { e with drawOp := c.drawOp, drawArgs := e.drawArgs ++ c.tuple } := by
  rw [apply_drawing c e hd h hm]
  have hfirst : (if e.drawOp ≠ c.drawOp then flushDrawOps e else Except.ok e) = Except.ok e := by
    by_cases hne : e.drawOp ≠ c.drawOp
    · rw [if_pos hne]
      rcases hop with hop | hop
      · exact absurd hop hne
      · exact flushDrawOps_none e hop
    · rw [if_neg hne]
  rw [hfirst]
  simp [hz, hy, hy2]

/-! ### Runs of drawing calls -/

/-- The empty list has no chunk. -/
theorem specChunksAux_nil {α : Type} (k fuel : Nat) :
    specChunksAux k fuel ([] : List α) = [] := by
  cases fuel <;> rfl

/-- Any bound at least the length of the list gives the same chunks. -/
theorem specChunksAux_fuel {α : Type} (k : Nat) (hk : 0 < k) :
    ∀ (fuel1 fuel2 : Nat) (xs : List α), xs.length ≤ fuel1 → xs.length ≤ fuel2 →
      specChunksAux k fuel1 xs = specChunksAux k fuel2 xs := by
  intro fuel1
  induction fuel1 with
  | zero =>
    intro fuel2 xs h1 _
    have : xs = [] := List.length_eq_zero.mp (by omega)
    subst this
    rw [specChunksAux_nil, specChunksAux_nil]
  | succ fuel1 ih =>
    intro fuel2 xs h1 h2
    cases xs with
    | nil => rw [specChunksAux_nil, specChunksAux_nil]
    | cons x xs =>
      cases fuel2 with
      | zero => simp at h2
      | succ fuel2 =>
        simp only [specChunksAux]
        congr 1
        apply ih <;> simp only [List.length_drop, List.length_cons] at h1 h2 ⊢ <;> omega

/-- The first chunk of a non-empty list and the chunks of the rest. -/
theorem specChunks_cons {α : Type} (k : Nat) (hk : 0 < k) (x : α) (xs : List α) :
    specChunks k (x :: xs) = (x :: xs).take k :: specChunks k ((x :: xs).drop k) := by
  unfold specChunks
  simp only [List.length_cons, specChunksAux]
  congr 1
  apply specChunksAux_fuel k hk
  · simp only [List.length_drop, List.length_cons]; omega
  · exact le_refl _

/-- The empty list has no chunk. -/
theorem specChunks_nil {α : Type} (k : Nat) : specChunks k ([] : List α) = [] := rfl


/-- A drawing call other than ClosePathEndPath carries as many arguments as the
table gives its operation, at least one, and its operation is not the byte 0. -/
theorem tuple_length (c : Call E) (hd : c.isDrawing = true) (hz : c ≠ Call.ClosePathEndPath) :
    c.tuple.length = (drawOps c.drawOp).nArgs ∧ (drawOps c.drawOp).nArgs ≠ 0 ∧ c.drawOp ≠ 0 ∧
    c.drawOp ≠ 90 := by
  cases c <;> simp [Call.isDrawing, Call.isStyling] at hd <;>
    first
    | exact absurd rfl hz
    | (simp only [Call.tuple, Call.drawOp, List.length_cons, List.length_nil]; decide)

/-- The closing calls with a MoveTo have a table entry with maxRepCount 1. -/
theorem maxRep_closing (k : Nat) (h : k = 89 ∨ k = 121) : (drawOps k).maxRepCount = 1 := by
  rcases h with rfl | rfl <;> decide

/-- The first run of a sequence is of the kind of its first call and starts with
its tuple. -/
theorem specRuns_head (c : Call E) (cs : List (Call E)) :
    ∃ ts rs, specRuns (c :: cs) = (c.drawOp, c.tuple :: ts) :: rs := by
  simp only [specRuns]
  split
  · exact ⟨[], [], rfl⟩
  · rename_i k ts rest _
    by_cases hk : k = c.drawOp
    · rw [if_pos hk, hk]; exact ⟨ts, rest, rfl⟩
    · rw [if_neg hk]; exact ⟨[], _, rfl⟩

/-- The runs of a sequence that starts with calls of one kind k, followed by a call
of another kind or by nothing: the first run is that of the calls of kind k. -/
theorem specRuns_append_uniform (k : Nat) (rest : List (Call E))
    (hrest : ∀ c r, rest = c :: r → c.drawOp ≠ k) :
    ∀ (pc : List (Call E)), pc ≠ [] → (∀ c ∈ pc, c.drawOp = k) →
      specRuns (pc ++ rest) = (k, pc.map Call.tuple) :: specRuns rest := by
  intro pc
  induction pc with
  | nil => intro h; exact absurd rfl h
  | cons p pc ih =>
    intro _ hk
    have hp : p.drawOp = k := hk p (by simp)
    cases pc with
    | nil =>
      simp only [List.singleton_append, List.map_cons, List.map_nil]
      cases rest with
      | nil => simp [specRuns, hp]
      | cons c r =>
        obtain ⟨ts, rs, hh⟩ := specRuns_head c r
        have hne : c.drawOp ≠ k := hrest c r rfl
        rw [specRuns, hh]
        simp [hp, hne]
    | cons p2 pc =>
      have ih2 := ih (by simp) (fun c hc => hk c (by simp [hc]))
      simp only [List.cons_append] at ih2 ⊢
      rw [specRuns, ih2]
      simp [hp]

/-- The bytes of the pending calls and of the calls that follow, when these start
with a call of another kind. -/
theorem specDraw_append (k : Nat) (pc rest : List (Call E))
    (hk : ∀ c ∈ pc, c.drawOp = k) (hrest : ∀ c r, rest = c :: r → c.drawOp ≠ k) :
    specDraw (pc ++ rest) = specDraw pc ++ specDraw rest := by
  by_cases hpc : pc = []
  · subst hpc; simp [specDraw, specRuns]
  · have h1 := specRuns_append_uniform k rest hrest pc hpc hk
    have h2 := specRuns_append_uniform k [] (by intro c r h; cases h) pc hpc hk
    simp only [List.append_nil] at h2
    simp only [specDraw, h1, h2, specRuns, List.flatMap_cons, List.flatMap_nil, List.append_nil]

/-- The bytes of the calls of one kind: the batches of their tuples. -/
theorem specDraw_uniform (k : Nat) (pc : List (Call E)) (hpc : pc ≠ [])
    (hk : ∀ c ∈ pc, c.drawOp = k) : specDraw pc = specFlush k (pc.map Call.tuple) := by
  have h2 := specRuns_append_uniform k [] (by intro c r h; cases h) pc hpc hk
  simp only [List.append_nil] at h2
  simp [specDraw, h2, specRuns]

/-- With maxRepCount 1 every tuple is batched on its own. -/
theorem specFlush_cons_of_one (k : Nat) (h1 : (drawOps k).maxRepCount = 1) (t : List E.F32)
    (ts : List (List E.F32)) : specFlush k (t :: ts) = specFlush k [t] ++ specFlush k ts := by
  unfold specFlush
  rw [h1, specChunks_cons 1 (by decide), specChunks_cons 1 (by decide) t []]
  simp [specChunks_nil]

/-- The bytes of a sequence that starts with a closing call with a MoveTo: the
group of that call alone, then the bytes of the rest. -/
theorem specDraw_closing (c : Call E) (cs : List (Call E)) (hc : c.drawOp = 89 ∨ c.drawOp = 121) :
    specDraw (c :: cs) = specFlush c.drawOp [c.tuple] ++ specDraw cs := by
  have h1 := maxRep_closing c.drawOp hc
  simp only [specDraw, specRuns]
  split
  · rename_i h; simp [h]
  · rename_i k ts rest h
    by_cases hk : k = c.drawOp
    · rw [if_pos hk, h, hk]
      simp only [List.flatMap_cons]
      rw [specFlush_cons_of_one c.drawOp h1, List.append_assoc]
    · rw [if_neg hk, h]
      simp only [List.flatMap_cons]

/-- A call whose operation is not 'Z' is not ClosePathEndPath. -/
theorem ne_close_of_drawOp (c : Call E) (h : c.drawOp ≠ 90) : c ≠ Call.ClosePathEndPath := by
  intro hc; subst hc; exact h rfl

/-- Running a sequence: its first call, then the rest. -/
theorem run_cons (c : Call E) (cs : List (Call E)) (e : Encoder E) :
    run (c :: cs) e =
      match c.apply e with
      | Except.error f => Except.error f
      | Except.ok e1 => run cs e1 := rfl

/-- Flushing inside a path appends the bytes of the pending calls. -/
theorem flush_pending (e : Encoder E) (pc : List (Call E)) (hp : Pending e pc) :
    flushDrawOps e = Except.ok
      { e with buf := e.buf ++ specDraw pc, drawOp := 0, drawArgs := [] } := by
  obtain ⟨herr, hm, hargs, hall, hnil⟩ := hp
  cases pc with
  | nil =>
    rw [flushDrawOps_none e (hnil rfl)]
    have h0 := hnil rfl
    simp only [List.map_nil, List.flatten_nil] at hargs
    cases e
    simp_all [specDraw, specRuns]
  | cons p pc =>
    obtain ⟨hpd, hpk, hp90, _, _⟩ := hall p (by simp)
    obtain ⟨_, hn0, _, _⟩ := tuple_length p hpd (ne_close_of_drawOp p hp90)
    rw [hpk] at hn0
    have hspec := flushDrawOps_spec e ((p :: pc).map Call.tuple) [] hn0
      (by rw [hargs, List.append_nil])
      (by
        intro t ht
        obtain ⟨c, hc, rfl⟩ := List.mem_map.mp ht
        obtain ⟨hcd, hck, hc90, _, _⟩ := hall c hc
        rw [← hck]
        exact (tuple_length c hcd (ne_close_of_drawOp c hc90)).1)
      (by simpa using Nat.pos_of_ne_zero hn0)
    rw [hspec, specDraw_uniform e.drawOp (p :: pc) (by simp) (fun c hc => (hall c hc).2.1)]

/-- The calls of a path, made inside the path and followed by ClosePathEndPath,
append the bytes of the pending calls and of the calls made, then the
terminator, and leave the encoder in Styling mode with nothing pending. -/
theorem run_path (cs : List (Call E)) : ∀ (pc : List (Call E)) (e : Encoder E),
    (∀ c ∈ cs, c.isDrawing = true ∧ c ≠ Call.ClosePathEndPath) → Pending e pc →
    run (cs ++ [Call.ClosePathEndPath]) e = Except.ok
      { e with
        buf := e.buf ++ specDraw (pc ++ cs) ++ [0xe1]
        mode := Mode.modeStyling
        drawOp := 0
        drawArgs := [] } := by
  induction cs with
  | nil =>
    intro pc e _ hp
    have hfl := flush_pending e pc hp
    obtain ⟨herr, hm, hargs, hall, hnil⟩ := hp
    have hne : e.drawOp ≠ (Call.ClosePathEndPath : Call E).drawOp := by
      cases pc with
      | nil => rw [hnil rfl]; simp [Call.drawOp]
      | cons p pc =>
        obtain ⟨_, hpk, hp90, _, _⟩ := hall p (by simp)
        rw [← hpk]; exact hp90
    simp only [List.nil_append, run]
    rw [apply_drawing Call.ClosePathEndPath e rfl herr hm, if_pos hne, hfl]
    simp only [Call.drawOp, Call.tuple, if_true, List.append_nil]
    rw [flushDrawOps_noArgs _ (by show (90 : Nat) ≠ 0; decide)
      (by show (drawOps 90).nArgs = 0; decide)]
    rfl
  | cons c cs ih =>
    intro pc e hcs hp
    obtain ⟨hcd, hcz⟩ := hcs c (by simp)
    have hcs2 : ∀ c ∈ cs, c.isDrawing = true ∧ c ≠ Call.ClosePathEndPath :=
      fun d hd => hcs d (by simp [hd])
    obtain ⟨htl, hn0, hc0, hc90⟩ := tuple_length c hcd hcz
    have hfl := flush_pending e pc hp
    obtain ⟨herr, hm, hargs, hall, hnil⟩ := hp
    rw [List.cons_append, run_cons]
    by_cases hsame : e.drawOp = c.drawOp
    · -- the call joins the pending run
      have hpcne : pc ≠ [] := by
        intro h; rw [hnil h] at hsame; exact hc0 hsame.symm
      obtain ⟨p, hpmem⟩ := List.exists_mem_of_ne_nil pc hpcne
      obtain ⟨_, hpk, _, hp89, hp121⟩ := hall p hpmem
      have hc89 : c.drawOp ≠ 89 := by rw [← hsame, ← hpk]; exact hp89
      have hc121 : c.drawOp ≠ 121 := by rw [← hsame, ← hpk]; exact hp121
      rw [apply_pending c e hcd herr hm (Or.inl hsame) hc90 hc89 hc121]
      simp only
      have hp2 : Pending ({ e with drawOp := c.drawOp, drawArgs := e.drawArgs ++ c.tuple })
          (pc ++ [c]) := by
        refine ⟨herr, hm, by simp [hargs], ?_, by simp⟩
        intro d hd
        rcases List.mem_append.mp hd with hd | hd
        · obtain ⟨h1, h2, h3, h4, h5⟩ := hall d hd
          exact ⟨h1, by rw [h2, hsame], h3, h4, h5⟩
        · simp at hd; subst hd
          exact ⟨hcd, rfl, hc90, hc89, hc121⟩
      rw [ih (pc ++ [c]) _ hcs2 hp2]
      simp
    · -- the pending run is flushed first
      have hsplit : specDraw (pc ++ c :: cs) = specDraw pc ++ specDraw (c :: cs) :=
        specDraw_append e.drawOp pc (c :: cs) (fun d hd => (hall d hd).2.1)
          (by intro d r h; cases h; exact fun h => hsame h.symm)
      rw [apply_drawing c e hcd herr hm, if_pos hsame, hfl]
      simp only [if_neg hc90, List.nil_append]
      by_cases hy : c.drawOp = 89 ∨ c.drawOp = 121
      · rw [if_pos hy]
        have hspec := flushDrawOps_spec
          ({ e with buf := e.buf ++ specDraw pc, drawOp := c.drawOp, drawArgs := c.tuple })
          [c.tuple] [] hn0 (by simp) (by simpa using htl) (by simpa using Nat.pos_of_ne_zero hn0)
        rw [hspec]
        simp only
        have hp2 : Pending ({ e with
            buf := e.buf ++ specDraw pc ++ specFlush c.drawOp [c.tuple]
            drawOp := 0
            drawArgs := [] }) [] :=
          ⟨herr, hm, by simp, by simp, fun _ => rfl⟩
        rw [ih [] _ hcs2 hp2, hsplit, specDraw_closing c cs hy]
        simp
      · rw [if_neg hy]
        have hp2 : Pending ({ e with
            buf := e.buf ++ specDraw pc
            drawOp := c.drawOp
            drawArgs := c.tuple }) [c] := by
          refine ⟨herr, hm, by simp, ?_, by simp⟩
          intro d hd
          simp at hd; subst hd
          exact ⟨hcd, rfl, hc90, fun h => hy (Or.inl h), fun h => hy (Or.inr h)⟩
        simp only
        rw [ih [c] _ hcs2 hp2, hsplit]
        simp

/-! ### Reset with a view box or a palette -/

/-- Reset for a view box that is not the default one and the default palette:
every field of the encoder it leaves. -/
theorem Reset_of_viewBox (e : Encoder E) (m : Metadata E)
    (hv : m.ViewBox.eq (DefaultViewBox E) = false)
    (hp : E.paletteEq m.Palette E.DefaultPalette = true) :
    Reset e m = Except.ok
      { buf := E.magic ++ E.encodeNatural 1
          ++ E.encodeNatural
            ((E.encodeNatural E.midViewBox ++ specViewBoxPayload m).length % 2 ^ 32)
          ++ (E.encodeNatural E.midViewBox ++ specViewBoxPayload m)
        altBuf := E.encodeNatural E.midViewBox ++ specViewBoxPayload m
        metadata := m
        err := none
        mode := Mode.modeStyling
        drawOp := 0
        drawArgs := []
        cSel := 0
        nSel := 0
        lod0 := E.zero
        lod1 := E.positiveInfinity } := by
  simp [Reset, hv, hp, specViewBoxPayload]

/-- Reset for a palette that is not the default one ends in the panic. -/
theorem Reset_of_palette (e : Encoder E) (m : Metadata E)
    (hp : E.paletteEq m.Palette E.DefaultPalette = false) :
    Reset e m = Except.error Fault.todoSuggestedPalette := by
  simp [Reset, hp]

/-- Reset does not read the encoder it is called on. -/
theorem Reset_independent (s s2 : Encoder E) (m : Metadata E) : Reset s m = Reset s2 m := by
  simp [Reset]

/-! ### The pending run along the calls -/

/-- Reset with the default metadata of the sample environment leaves the sample
encoder. -/
theorem sample_reset :
    Reset (emptyEncoder sampleMetadata) sampleMetadata = Except.ok sampleEncoder := by
  rfl

/-- The pending run after a drawing method called in Drawing mode with no error
latched: a closing call leaves nothing pending; any other call leaves its
operation pending, with its tuple added to the pending arguments when the
operation was the pending one or none was pending, and alone otherwise. -/
theorem apply_drawing_pending (c : Call E) (e : Encoder E) (hd : c.isDrawing = true)
    (h : e.err = none) (hm : e.mode = Mode.modeDrawing) :
    ∃ e2, c.apply e = Except.ok e2 ∧
      ((c.drawOp = 90 ∨ c.drawOp = 89 ∨ c.drawOp = 121) → e2.drawOp = 0 ∧ e2.drawArgs = []) ∧
      (¬ (c.drawOp = 90 ∨ c.drawOp = 89 ∨ c.drawOp = 121) →
        e2.drawOp = c.drawOp ∧
        ((e.drawOp = c.drawOp ∨ e.drawOp = 0) → e2.drawArgs = e.drawArgs ++ c.tuple) ∧
        (e.drawOp ≠ c.drawOp → e.drawOp ≠ 0 → e2.drawArgs = c.tuple)) := by
  rw [apply_drawing c e hd h hm]
  obtain ⟨out1, h1⟩ := flushDrawOps_total e
  have hfirst : ∃ e1, (if e.drawOp ≠ c.drawOp then flushDrawOps e else Except.ok e)
      = Except.ok e1 ∧
      ((e.drawOp = c.drawOp ∨ e.drawOp = 0) → e1.drawArgs = e.drawArgs) ∧
      (e.drawOp ≠ c.drawOp → e.drawOp ≠ 0 → e1.drawArgs = []) := by
    by_cases hop : e.drawOp ≠ c.drawOp
    · rw [if_pos hop, h1]
      by_cases h0 : e.drawOp = 0
      · rw [if_pos h0]; exact ⟨e, rfl, fun _ => rfl, fun _ h => absurd h0 h⟩
      · rw [if_neg h0]
        refine ⟨_, rfl, fun hh => ?_, fun _ _ => rfl⟩
        rcases hh with hh | hh
        · exact absurd hh hop
        · exact absurd hh h0
    · rw [if_neg hop]; exact ⟨e, rfl, fun _ => rfl, fun h => absurd h hop⟩
  obtain ⟨e1, he1, hsame, hdiff⟩ := hfirst
  rw [he1]
  simp only
  by_cases hz : c.drawOp = 90
  · rw [if_pos hz]
    obtain ⟨out2, h2⟩ := flushDrawOps_total
      { e1 with drawOp := c.drawOp, drawArgs := e1.drawArgs ++ c.tuple, mode := Mode.modeStyling }
    rw [h2]
    have h0 : ¬ (c.drawOp = 0) := by omega
    simp only [h0, if_false]
    exact ⟨_, rfl, fun _ => ⟨rfl, rfl⟩, fun hn => absurd (Or.inl hz) hn⟩
  · rw [if_neg hz]
    by_cases hy : c.drawOp = 89 ∨ c.drawOp = 121
    · rw [if_pos hy]
      obtain ⟨out2, h2⟩ := flushDrawOps_total
        { e1 with drawOp := c.drawOp, drawArgs := e1.drawArgs ++ c.tuple }
      rw [h2]
      have h0 : ¬ (c.drawOp = 0) := by omega
      simp only [h0, if_false]
      exact ⟨_, rfl, fun _ => ⟨rfl, rfl⟩, fun hn => absurd (Or.inr hy) hn⟩
    · rw [if_neg hy]
      refine ⟨_, rfl, fun hc => ?_, fun _ => ⟨rfl, fun hh => ?_, fun hh1 hh2 => ?_⟩⟩
      · rcases hc with hc | hc
        · exact absurd hc hz
        · exact absurd hc hy
      · show e1.drawArgs ++ c.tuple = e.drawArgs ++ c.tuple
        rw [hsame hh]
      · show e1.drawArgs ++ c.tuple = c.tuple
        rw [hdiff hh1 hh2, List.nil_append]

/-- A call that is not a drawing method called in Drawing mode with no error
latched leaves the pending run as it is, and leaves the mode as it is or sets it
to Drawing. -/
theorem apply_other_pending (c : Call E) (e e2 : Encoder E) (h : c.apply e = Except.ok e2)
    (hnot : ¬ (c.isDrawing = true ∧ e.err = none ∧ e.mode = Mode.modeDrawing)) :
    e2.drawOp = e.drawOp ∧ e2.drawArgs = e.drawArgs ∧
    (e2.mode = e.mode ∨ e2.mode = Mode.modeDrawing) := by
  by_cases herr : e.err = none
  · by_cases hsty : c.isStyling = true
    · cases c <;> simp [Call.isStyling] at hsty <;>
        simp only [Call.apply, SetCSel, SetNSel, SetLOD, StartPath, herr] at h <;>
        simp at h <;> subst h <;> (repeat' split) <;> simp
    · have hd : c.isDrawing = true := by simpa [Call.isDrawing] using hsty
      cases hm : e.mode with
      | modeDrawing => exact absurd ⟨hd, herr, hm⟩ hnot
      | modeStyling =>
        rw [apply_drawing_in_styling e c herr hm hd] at h
        cases h
        exact ⟨rfl, rfl, Or.inl hm⟩
  · rw [apply_of_err e c herr] at h
    cases h
    exact ⟨rfl, rfl, Or.inl rfl⟩

/-- Every call returns and leaves a buffer that starts with the buffer of before. -/
theorem apply_appends (c : Call E) (e : Encoder E) :
    ∃ e2, c.apply e = Except.ok e2 ∧ e.buf <+: e2.buf := by
  by_cases hsty : c.isStyling = true
  · cases c <;> simp [Call.isStyling] at hsty <;> refine ⟨_, rfl, ?_⟩
    · simp only [SetCSel]; split_ifs <;> simp
    · simp only [SetNSel]; split_ifs <;> simp
    · simp only [SetLOD]; split_ifs <;> simp
    · simp only [StartPath]; split_ifs <;> simp
  · have hd : c.isDrawing = true := by simpa [Call.isDrawing] using hsty
    by_cases herr : e.err = none
    · cases hm : e.mode with
      | modeStyling =>
        exact ⟨_, apply_drawing_in_styling e c herr hm hd, List.prefix_refl _⟩
      | modeDrawing =>
        obtain ⟨e2, h2, _, _, ⟨out, hout⟩, _⟩ := apply_drawing_frame c e hd herr hm
        exact ⟨e2, h2, by rw [hout]; exact List.prefix_append _ _⟩
    · exact ⟨e, apply_of_err e c herr, List.prefix_refl _⟩

/-- The arity invariant of the pending run is kept by every call. -/
theorem arity_step (c : Call E) (e e2 : Encoder E) (h : c.apply e = Except.ok e2)
    (hinv : (e.drawOp ≠ 0 → (drawOps e.drawOp).nArgs ∣ e.drawArgs.length) ∧
      (e.drawOp = 0 → e.drawArgs = [])) :
    (e2.drawOp ≠ 0 → (drawOps e2.drawOp).nArgs ∣ e2.drawArgs.length) ∧
      (e2.drawOp = 0 → e2.drawArgs = []) := by
  by_cases hcase : c.isDrawing = true ∧ e.err = none ∧ e.mode = Mode.modeDrawing
  · obtain ⟨hd, herr, hm⟩ := hcase
    obtain ⟨e3, h3, hclose, hopen⟩ := apply_drawing_pending c e hd herr hm
    rw [h3] at h
    cases h
    by_cases hc : c.drawOp = 90 ∨ c.drawOp = 89 ∨ c.drawOp = 121
    · obtain ⟨h0, ha⟩ := hclose hc
      exact ⟨fun hne => absurd h0 hne, fun _ => ha⟩
    · obtain ⟨hop, hsame, hdiff⟩ := hopen hc
      have hz : c ≠ Call.ClosePathEndPath := by
        intro hcz; subst hcz; exact hc (Or.inl rfl)
      obtain ⟨htl, _, hc0, _⟩ := tuple_length c hd hz
      refine ⟨fun _ => ?_, fun h0 => absurd (hop ▸ h0) hc0⟩
      rw [hop]
      by_cases hs : e.drawOp = c.drawOp ∨ e.drawOp = 0
      · rw [hsame hs, List.length_append, htl]
        rcases hs with hs | hs
        · have := hinv.1 (by rw [hs]; exact hc0)
          rw [hs] at this
          exact Dvd.dvd.add this (dvd_refl _)
        · rw [hinv.2 hs]; simp
      · have h1 : e.drawOp ≠ c.drawOp := fun hh => hs (Or.inl hh)
        have h2 : e.drawOp ≠ 0 := fun hh => hs (Or.inr hh)
        rw [hdiff h1 h2, htl]
  · obtain ⟨hop, hargs, _⟩ := apply_other_pending c e e2 h hcase
    rw [hop, hargs]
    exact hinv

/-- The invariant that nothing is pending in Styling mode is kept by every call. -/
theorem styling_step (c : Call E) (e e2 : Encoder E) (h : c.apply e = Except.ok e2)
    (hinv : e.mode = Mode.modeStyling → e.drawOp = 0 ∧ e.drawArgs = []) :
    e2.mode = Mode.modeStyling → e2.drawOp = 0 ∧ e2.drawArgs = [] := by
  intro hm2
  by_cases hcase : c.isDrawing = true ∧ e.err = none ∧ e.mode = Mode.modeDrawing
  · obtain ⟨hd, herr, hm⟩ := hcase
    obtain ⟨e3, h3, _, hmode, _⟩ := apply_drawing_frame c e hd herr hm
    obtain ⟨e4, h4, hclose, _⟩ := apply_drawing_pending c e hd herr hm
    rw [h3] at h
    cases h
    rw [h3] at h4
    cases h4
    by_cases hz : c.drawOp = 90
    · exact hclose (Or.inl hz)
    · rw [hmode, if_neg hz] at hm2
      exact absurd hm2 (by decide)
  · obtain ⟨hop, hargs, hmode⟩ := apply_other_pending c e e2 h hcase
    rw [hop, hargs]
    rcases hmode with hmode | hmode
    · exact hinv (hmode ▸ hm2)
    · rw [hmode] at hm2
      exact absurd hm2 (by decide)

/-- The states a sequence of calls leads to from a reachable state are reachable. -/
theorem reachable_run (cs : List (Call E)) : ∀ (e e2 : Encoder E), Reachable e →
    run cs e = Except.ok e2 → Reachable e2 := by
  induction cs with
  | nil => intro e e2 hr h; cases h; exact hr
  | cons c cs ih =>
    intro e e2 hr h
    rw [run_cons] at h
    obtain ⟨e1, h1⟩ := apply_total c e
    rw [h1] at h
    exact ih e1 e2 (Reachable.call e e1 c hr h1) h

/-- The sample encoder with 33 tuples pending is reachable: Reset, StartPath, and
the 33 calls AbsLineTo. -/
theorem sample_reachable : Reachable samplePending :=
  reachable_run sampleCalls sampleDrawing samplePending
    (Reachable.call sampleEncoder sampleDrawing (Call.StartPath 0 (0 : Int) (0 : Int))
      (Reachable.reset _ _ _ sample_reset) rfl) rfl

/-- An arc call made in a path with nothing pending, then flushed: the opcode of a
run of one and the six encodings of the tuple the call records. -/
theorem arc_flush (c : Call E) (t : List E.F32) (base : Nat) (e : Encoder E)
    (hd : c.isDrawing = true) (hop : c.drawOp = 65 ∨ c.drawOp = 97)
    (ht : c.tuple = t) (hlen : t.length = 6) (hbase : (drawOps c.drawOp).opcodeBase = base)
    (h : e.err = none) (hm : e.mode = Mode.modeDrawing)
    (h0 : e.drawOp = 0) (hargs : e.drawArgs = []) :
    ∃ e1, c.apply e = Except.ok e1 ∧ e1.buf = e.buf ∧ e1.drawArgs = t ∧
      ∃ e2, flushDrawOps e1 = Except.ok e2 ∧
        e2.buf = e.buf ++ [base] ++ encodeTuple c.drawOp t := by
  have hz : c.drawOp ≠ 90 := by omega
  have hy : c.drawOp ≠ 89 := by omega
  have hy2 : c.drawOp ≠ 121 := by omega
  have hn : (drawOps c.drawOp).nArgs = 6 ∧ (drawOps c.drawOp).maxRepCount = 16 := by
    rcases hop with hop | hop <;> rw [hop] <;> decide
  refine ⟨_, apply_pending c e hd h hm (Or.inr h0) hz hy hy2, rfl, by simp [hargs, ht], ?_⟩
  have hspec := flushDrawOps_spec
    ({ e with drawOp := c.drawOp, drawArgs := e.drawArgs ++ c.tuple }) [t] []
    (by simp [hn.1]) (by simp [hargs, ht]) (by simp [hn.1, hlen]) (by simp [hn.1])
  refine ⟨_, hspec, ?_⟩
  simp [specFlush, specChunks, specChunksAux, specGroup, hn.2, hbase]


/-! ### The opcode bytes -/

/-- Every op kind has a run length ceiling between 1 and 32, opcodes that stay
below 256 up to a full run, and the ceiling 1 when it takes no argument. -/
theorem drawOpKinds_bounds : ∀ c ∈ drawOpKinds,
    1 ≤ (drawOps c).maxRepCount ∧ (drawOps c).maxRepCount ≤ 32 ∧
    (drawOps c).opcodeBase + (drawOps c).maxRepCount ≤ 256 ∧
    ((drawOps c).nArgs = 0 → (drawOps c).maxRepCount = 1) := by
  decide

/-- The opcode ranges of two different op kinds do not meet. -/
theorem drawOpKinds_disjoint : ∀ c ∈ drawOpKinds, ∀ d ∈ drawOpKinds, c ≠ d →
    (drawOps c).opcodeBase + (drawOps c).maxRepCount ≤ (drawOps d).opcodeBase ∨
    (drawOps d).opcodeBase + (drawOps d).maxRepCount ≤ (drawOps c).opcodeBase := by
  decide

/-- The opcode byte of a run within the ceiling is opcodeBase + m - 1, without
wrapping. -/
theorem opcodeByte_eq (c m : Nat) (hc : c ∈ drawOpKinds) (h1 : 1 ≤ m)
    (hm : m ≤ (drawOps c).maxRepCount) :
    opcodeByte c m = (drawOps c).opcodeBase + m - 1 ∧ opcodeByte c m ≤ 255 := by
  obtain ⟨_, h32, hb, hz⟩ := drawOpKinds_bounds c hc
  unfold opcodeByte
  by_cases hn : (drawOps c).nArgs = 0
  · rw [if_pos hn]
    have := hz hn
    omega
  · rw [if_neg hn]
    omega

/-- The byte opcodeByte is the one flushDrawOps appends: alone for a pending
operation without arguments, and in front of the encodings of the tuples for a
pending run of between 1 and maxRepCount tuples. -/
theorem flushDrawOps_opcodeByte (e : Encoder E) (h0 : e.drawOp ≠ 0) :
    ((drawOps e.drawOp).nArgs = 0 →
      flushDrawOps e = Except.ok
        { e with buf := e.buf ++ [opcodeByte e.drawOp 1], drawOp := 0, drawArgs := [] }) ∧
    (∀ ts : List (List E.F32), (drawOps e.drawOp).nArgs ≠ 0 → e.drawArgs = ts.flatten →
      (∀ t ∈ ts, t.length = (drawOps e.drawOp).nArgs) →
      1 ≤ ts.length → ts.length ≤ (drawOps e.drawOp).maxRepCount →
      flushDrawOps e = Except.ok
        { e with
          buf := e.buf ++ opcodeByte e.drawOp ts.length :: ts.flatMap (encodeTuple e.drawOp)
          drawOp := 0
          drawArgs := [] }) := by
  constructor
  · intro hn
    rw [flushDrawOps_noArgs e h0 hn]
    simp [opcodeByte, hn]
  · intro ts hn hargs hlen h1 hle
    obtain ⟨hk, h32, hb, _, _⟩ := drawOps_facts e.drawOp hn
    rw [flushDrawOps_spec e ts [] hn (by rw [hargs, List.append_nil]) hlen
      (by simpa using Nat.pos_of_ne_zero hn)]
    cases ts with
    | nil => simp at h1
    | cons t ts =>
      have htake : List.take (drawOps e.drawOp).maxRepCount (t :: ts) = t :: ts :=
        List.take_of_length_le hle
      have hdrop : List.drop (drawOps e.drawOp).maxRepCount (t :: ts) = [] :=
        List.drop_eq_nil_of_le hle
      have hop : (drawOps e.drawOp).opcodeBase + (t :: ts).length - 1
          = opcodeByte e.drawOp (t :: ts).length := by
        unfold opcodeByte
        rw [if_neg hn]
        omega
      unfold specFlush
      rw [specChunks_cons _ hk, htake, hdrop, specChunks_nil]
      simp only [List.flatMap_cons, List.flatMap_nil, List.append_nil, specGroup, hop]


/-! ### The arguments of a path in the buffer -/

/-- The runs of tuples are the runs of calls, each call replaced by its tuple. -/
theorem specRuns_eq_map (cs : List (Call E)) :
    specRuns cs = (specCallRuns cs).map (fun r => (r.1, r.2.map Call.tuple)) := by
  induction cs with
  | nil => rfl
  | cons c cs ih =>
    simp only [specRuns, specCallRuns, ih]
    cases h : specCallRuns cs with
    | nil => simp
    | cons r rest =>
      obtain ⟨k, l⟩ := r
      simp only [List.map_cons]
      by_cases hk : k = c.drawOp
      · simp [hk]
      · simp [hk]

/-- The runs of calls, put together, are the calls. -/
theorem specCallRuns_flatten (cs : List (Call E)) :
    (specCallRuns cs).flatMap Prod.snd = cs := by
  induction cs with
  | nil => rfl
  | cons c cs ih =>
    simp only [specCallRuns]
    cases h : specCallRuns cs with
    | nil =>
      rw [h] at ih
      simp at ih
      simp [← ih]
    | cons r rest =>
      obtain ⟨k, l⟩ := r
      rw [h] at ih
      simp only [List.flatMap_cons] at ih
      by_cases hk : k = c.drawOp
      · simp [hk, ← ih]
      · simp [hk, ← ih]

/-- Every call of a run is of the kind of the run, and is one of the calls. -/
theorem specCallRuns_mem (cs : List (Call E)) :
    ∀ r ∈ specCallRuns cs, ∀ c ∈ r.2, c.drawOp = r.1 ∧ c ∈ cs := by
  induction cs with
  | nil => intro r hr; simp [specCallRuns] at hr
  | cons c cs ih =>
    intro r hr d hd
    simp only [specCallRuns] at hr
    cases h : specCallRuns cs with
    | nil =>
      rw [h] at hr
      simp at hr
      subst hr
      simp at hd
      subst hd
      exact ⟨rfl, by simp⟩
    | cons r0 rest =>
      obtain ⟨k, l⟩ := r0
      rw [h] at hr ih
      by_cases hk : k = c.drawOp
      · simp only [hk, if_true, List.mem_cons] at hr
        rcases hr with rfl | hr
        · simp only [List.mem_cons] at hd
          rcases hd with rfl | hd
          · exact ⟨rfl, by simp⟩
          · obtain ⟨h1, h2⟩ := ih (k, l) (by simp) d hd
            exact ⟨by simpa [hk] using h1, by simp [h2]⟩
        · obtain ⟨h1, h2⟩ := ih r (by simp [hr]) d hd
          exact ⟨h1, by simp [h2]⟩
      · simp only [hk, if_false, List.mem_cons] at hr
        rcases hr with rfl | rfl | hr
        · simp at hd
          subst hd
          exact ⟨rfl, by simp⟩
        · obtain ⟨h1, h2⟩ := ih (k, l) (by simp) d hd
          exact ⟨h1, by simp [h2]⟩
        · obtain ⟨h1, h2⟩ := ih r (by simp [hr]) d hd
          exact ⟨h1, by simp [h2]⟩

/-- The chunks of a mapped list are the mapped chunks of the list. -/
theorem specChunksAux_map {α β : Type} (f : α → β) (k : Nat) :
    ∀ (fuel : Nat) (l : List α),
      specChunksAux k fuel (l.map f) = (specChunksAux k fuel l).map (List.map f) := by
  intro fuel
  induction fuel with
  | zero => intro l; rfl
  | succ fuel ih =>
    intro l
    cases l with
    | nil => rfl
    | cons a l =>
      simp only [List.map_cons, specChunksAux]
      rw [← List.map_cons, ← List.map_take, ← List.map_drop, ih]

/-- Every drawing method has an operation with a positive run length ceiling. -/
theorem maxRep_pos (c : Call E) (hd : c.isDrawing = true) :
    0 < (drawOps c.drawOp).maxRepCount := by
  cases c <;> simp [Call.isDrawing, Call.isStyling] at hd <;>
    simp only [Call.drawOp] <;> decide

/-- The batches of a run of calls of one kind, as groups of calls: the calls of
the groups are the calls of the run. -/
theorem specFlush_groups (k : Nat) (l : List (Call E)) (hk : ∀ c ∈ l, c.drawOp = k)
    (hpos : l ≠ [] → 0 < (drawOps k).maxRepCount) :
    ((specChunks (drawOps k).maxRepCount l).map
        (fun g => ((drawOps k).opcodeBase + g.length - 1, g))).flatMap Prod.snd = l ∧
    specFlush k (l.map Call.tuple) = specGroupsBytes
      ((specChunks (drawOps k).maxRepCount l).map
        (fun g => ((drawOps k).opcodeBase + g.length - 1, g))) := by
  constructor
  · rw [List.flatMap_map]
    cases l with
    | nil => rfl
    | cons a l =>
      have := specChunksAux_flatten (drawOps k).maxRepCount (hpos (by simp)) (a :: l).length
        (a :: l) (le_refl _)
      show (specChunks (drawOps k).maxRepCount (a :: l)).flatMap id = a :: l
      rw [List.flatMap_id]
      exact this
  · unfold specFlush specGroupsBytes specChunks
    rw [List.length_map, specChunksAux_map, List.flatMap_map, List.flatMap_map]
    apply flatMap_congr_mem
    intro g hg
    have hsub : ∀ c ∈ g, c ∈ l := by
      intro c hc
      have hfl : c ∈ (specChunksAux (drawOps k).maxRepCount l.length l).flatten :=
        List.mem_flatten.mpr ⟨g, hg, hc⟩
      cases l with
      | nil => simp [specChunksAux_nil] at hg
      | cons a l =>
        rw [specChunksAux_flatten _ (hpos (by simp)) _ _ (le_refl _)] at hfl
        exact hfl
    simp only [specGroup, List.length_map, List.flatMap_map]
    congr 1
    apply flatMap_congr_mem
    intro c hc
    rw [hk c (hsub c hc)]

/-- The bytes of a sequence of drawing calls are groups of calls, each an opcode
byte followed by the encodings of the tuples of its calls, and the calls of the
groups, in order, are the calls of the sequence: every argument is there. -/
theorem specDraw_groups (cs : List (Call E)) (hcs : ∀ c ∈ cs, c.isDrawing = true) :
    ∃ gs : List (Nat × List (Call E)),
      gs.flatMap Prod.snd = cs ∧ specDraw cs = specGroupsBytes gs := by
  refine ⟨(specCallRuns cs).flatMap (fun r =>
    (specChunks (drawOps r.1).maxRepCount r.2).map
      (fun g => ((drawOps r.1).opcodeBase + g.length - 1, g))), ?_, ?_⟩
  · rw [List.flatMap_assoc]
    conv_rhs => rw [← specCallRuns_flatten cs]
    apply flatMap_congr_mem
    intro r hr
    refine (specFlush_groups r.1 r.2 (fun c hc => (specCallRuns_mem cs r hr c hc).1) ?_).1
    intro hne
    obtain ⟨c, hc⟩ := List.exists_mem_of_ne_nil r.2 hne
    obtain ⟨h1, h2⟩ := specCallRuns_mem cs r hr c hc
    rw [← h1]
    exact maxRep_pos c (hcs c h2)
  · unfold specDraw
    rw [specRuns_eq_map, List.flatMap_map]
    unfold specGroupsBytes
    rw [List.flatMap_assoc]
    apply flatMap_congr_mem
    intro r hr
    have := (specFlush_groups r.1 r.2 (fun c hc => (specCallRuns_mem cs r hr c hc).1) (by
      intro hne
      obtain ⟨c, hc⟩ := List.exists_mem_of_ne_nil r.2 hne
      obtain ⟨h1, h2⟩ := specCallRuns_mem cs r hr c hc
      rw [← h1]
      exact maxRep_pos c (hcs c h2))).2
    simpa [specGroupsBytes] using this

/-- A whole path made on an encoder in Styling mode with no error latched and
nothing pending: StartPath, the drawing calls and ClosePathEndPath return, and
leave the buffer of before followed by the bytes of the path, with nothing
pending. -/
theorem run_whole_path (e : Encoder E) (adj : Int) (x y : E.F32) (cs : List (Call E))
    (herr : e.err = none) (hm : e.mode = Mode.modeStyling)
    (hop : e.drawOp = 0) (hargs : e.drawArgs = [])
    (h0 : 0 ≤ adj) (h6 : adj ≤ 6)
    (hcs : ∀ c ∈ cs, c.isDrawing = true ∧ c ≠ Call.ClosePathEndPath) :
    ∃ e2, run (Call.StartPath adj x y :: (cs ++ [Call.ClosePathEndPath])) e = Except.ok e2 ∧
      e2.err = none ∧ e2.mode = Mode.modeStyling ∧ e2.drawOp = 0 ∧ e2.drawArgs = [] ∧
      e2.buf = e.buf ++ [0xc0 + adj.toNat] ++ E.encodeCoordinate x ++ E.encodeCoordinate y
        ++ specDraw cs ++ [0xe1] := by
  have hb : ((0xc0 + adj) % 256).toNat = 0xc0 + adj.toNat := by omega
  have hc : ¬ (adj < 0 ∨ 6 < adj) := by omega
  have hpend : Pending (StartPath adj x y e) [] := by
    refine ⟨?_, ?_, ?_, by simp, fun _ => ?_⟩ <;> simp [StartPath, herr, hm, hc, hop, hargs]
  rw [run_cons]
  simp only [Call.apply]
  refine ⟨_, run_path cs [] _ hcs hpend, ?_, rfl, rfl, rfl, ?_⟩
  · simp [StartPath, herr, hm, hc]
  · simp [StartPath, herr, hm, hc, hb]


/-! ### The claims -/


/-- C1. Error stickiness: on an encoder with a latched error, every styling and
drawing method call returns the encoder unchanged: buffer, mode, pending
operation and arguments, selectors, LOD window and the latched error itself. -/
theorem error_sticky (e : Encoder E) (c : Call E) (h : e.err ≠ none) :
    c.apply e = Except.ok e :=
  apply_of_err e c h

/-- C1 at a concrete input: after StartPath(7, 0, 0) has latched its error, a
styling call and a drawing call both leave the encoder as it is. -/
theorem error_sticky_witness :
    (Call.SetCSel 5).apply sampleFailed = Except.ok sampleFailed ∧
    (Call.AbsLineTo (1 : Int) (1 : Int)).apply sampleFailed = Except.ok sampleFailed ∧
    sampleFailed.err = some Error.errInvalidSelectorAdjustment :=
  ⟨error_sticky sampleFailed _ (by decide), error_sticky sampleFailed _ (by decide), by decide⟩

/-- C2. Mode violation: with no error latched, in Drawing mode each styling
method latches errStylingOpsUsedInDrawingMode, and in Styling mode each drawing
method latches errDrawingOpsUsedInStylingMode; the error is the only field that
changes, so nothing is appended and mode, selectors, LOD window and pending run
stay as they are. -/
theorem mode_violation (e : Encoder E) (c : Call E) (h : e.err = none) :
    (e.mode = Mode.modeDrawing → c.isStyling = true →
      c.apply e = Except.ok { e with err := some Error.errStylingOpsUsedInDrawingMode }) ∧
    (e.mode = Mode.modeStyling → c.isDrawing = true →
      c.apply e = Except.ok { e with err := some Error.errDrawingOpsUsedInStylingMode }) :=
  ⟨apply_styling_in_drawing e c h, apply_drawing_in_styling e c h⟩

/-- C2 at concrete inputs: StartPath with the out-of-range adjustment 7 in
Drawing mode latches the styling error, and AbsLineTo on a fresh encoder latches
the drawing error. -/
theorem mode_violation_witness :
    (Call.StartPath 7 (0 : Int) (0 : Int)).apply sampleDrawing
      = Except.ok { sampleDrawing with err := some Error.errStylingOpsUsedInDrawingMode } ∧
    (Call.AbsLineTo (1 : Int) (1 : Int)).apply sampleEncoder
      = Except.ok { sampleEncoder with err := some Error.errDrawingOpsUsedInStylingMode } :=
  ⟨(mode_violation sampleDrawing _ (by decide)).1 (by decide) (by decide),
   (mode_violation sampleEncoder _ (by decide)).2 (by decide) (by decide)⟩

/-- C4. StartPath contract: with no error latched and in Styling mode, an
adjustment in [0, 6] makes StartPath append exactly the byte 0xc0 + adj and the
coordinates x and y, set the mode to Drawing and latch no error; an adjustment
outside [0, 6] makes it latch errInvalidSelectorAdjustment, append nothing and
leave the mode Styling. -/
theorem startPath_contract (e : Encoder E) (adj : Int) (x y : E.F32)
    (h : e.err = none) (hm : e.mode = Mode.modeStyling) :
    (0 ≤ adj ∧ adj ≤ 6 →
      StartPath adj x y e =
        { e with
          buf := e.buf ++ [0xc0 + adj.toNat] ++ E.encodeCoordinate x ++ E.encodeCoordinate y
          mode := Mode.modeDrawing } ∧
      (StartPath adj x y e).err = none) ∧
    (adj < 0 ∨ 6 < adj →
      StartPath adj x y e = { e with err := some Error.errInvalidSelectorAdjustment } ∧
      (StartPath adj x y e).buf = e.buf ∧
      (StartPath adj x y e).mode = Mode.modeStyling) := by
  constructor
  · rintro ⟨h0, h6⟩
    have hb : ((0xc0 + adj) % 256).toNat = 0xc0 + adj.toNat := by omega
    have hc : ¬ (adj < 0 ∨ 6 < adj) := by omega
    simp [StartPath, h, hm, hc, hb]
  · intro hadj
    simp [StartPath, h, hm, hadj]

/-- C4 at concrete inputs: StartPath(3, 1, 2) on a fresh encoder appends 0xc3 and
the two coordinates, and StartPath(7, 0, 0) only latches the error. -/
theorem startPath_contract_witness :
    StartPath 3 (1 : Int) (2 : Int) sampleEncoder =
      { sampleEncoder with
        buf := [0x89, 0x49, 0x56, 0x47, 1, 0] ++ [0xc3] ++ [3, 1] ++ [3, 2]
        mode := Mode.modeDrawing } ∧
    StartPath 7 (0 : Int) (0 : Int) sampleEncoder =
      { sampleEncoder with err := some Error.errInvalidSelectorAdjustment } :=
  ⟨((startPath_contract sampleEncoder 3 (1 : Int) (2 : Int) rfl rfl).1 (by decide)).1,
   ((startPath_contract sampleEncoder 7 (0 : Int) (0 : Int) rfl rfl).2 (by decide)).1⟩

/-- The low six bits of a number, or-ed with 0x40, are that number plus 0x40. -/
theorem or_0x40 : ∀ x < 64, x ||| 0x40 = x + 0x40 := by decide

/-- The mask 0x3f keeps the remainder modulo 64. -/
theorem and_0x3f (n : Nat) : n &&& 0x3f = n % 64 := Nat.and_pow_two_sub_one_eq_mod n 6

/-- C7. Selector serialization: in Styling mode with no error latched, SetCSel(n)
appends exactly the one byte n & 0x3f and SetNSel(n) exactly the one byte
(n & 0x3f) | 0x40; the first is below 0x40 and the second lies in [0x40, 0x7f], so
a colour-selector byte never equals a natural-number-selector byte. -/
theorem selector_bytes (e : Encoder E) (n n2 : Nat)
    (h : e.err = none) (hm : e.mode = Mode.modeStyling) :
    (SetCSel n e).buf = e.buf ++ [n &&& 0x3f] ∧
    (SetNSel n e).buf = e.buf ++ [(n &&& 0x3f) ||| 0x40] ∧
    n &&& 0x3f < 0x40 ∧
    0x40 ≤ (n &&& 0x3f) ||| 0x40 ∧ (n &&& 0x3f) ||| 0x40 ≤ 0x7f ∧
    n &&& 0x3f ≠ (n2 &&& 0x3f) ||| 0x40 := by
  have h1 : n &&& 0x3f < 64 := by rw [and_0x3f]; omega
  have h2 : n2 &&& 0x3f < 64 := by rw [and_0x3f]; omega
  have h3 := or_0x40 _ h1
  have h4 := or_0x40 _ h2
  refine ⟨?_, ?_, h1, by omega, by omega, by omega⟩
  · have : (n &&& 0x3f) % 256 = n &&& 0x3f := Nat.mod_eq_of_lt (by omega)
    simp [SetCSel, h, hm, this]
  · have : ((n &&& 0x3f) ||| 0x40) % 256 = (n &&& 0x3f) ||| 0x40 := Nat.mod_eq_of_lt (by omega)
    simp [SetNSel, h, hm, this]

/-- C7 at concrete inputs: SetCSel(0x7f) appends 0x3f and SetNSel(0x7f) appends
0x7f. -/
theorem selector_bytes_witness :
    (SetCSel 0x7f sampleEncoder).buf = sampleEncoder.buf ++ [0x7f &&& 0x3f] ∧
    (SetNSel 0x7f sampleEncoder).buf = sampleEncoder.buf ++ [(0x7f &&& 0x3f) ||| 0x40] ∧
    0x7f &&& 0x3f = 0x3f ∧ (0x7f &&& 0x3f) ||| 0x40 = 0x7f :=
  ⟨(selector_bytes sampleEncoder 0x7f 0 rfl rfl).1,
   (selector_bytes sampleEncoder 0x7f 0 rfl rfl).2.1,
   by decide, by decide⟩

/-- C8, as stated, fails: after SetCSel(0x7F) on a fresh encoder the accessor CSel
returns 0x7F, not 0x7F & 0x3f = 0x3F; likewise for SetNSel and NSel. -/
theorem selector_storage_counterexample :
    CSel (SetCSel 0x7F sampleEncoder) = 0x7F ∧
    CSel (SetCSel 0x7F sampleEncoder) ≠ 0x7F &&& 0x3f ∧
    NSel (SetNSel 0x7F sampleEncoder) ≠ 0x7F &&& 0x3f := by
  decide

/-- C8, amended. After a successful SetCSel(n) the accessor CSel returns n itself,
and after a successful SetNSel(n) the accessor NSel returns n itself: the mask
0x3f is applied to the byte that is serialized, not to the value stored. -/
theorem selector_storage (e : Encoder E) (n : Nat)
    (h : e.err = none) (hm : e.mode = Mode.modeStyling) :
    CSel (SetCSel n e) = n ∧ NSel (SetNSel n e) = n ∧
    (SetCSel n e).buf = e.buf ++ [n &&& 0x3f] ∧
    (SetNSel n e).buf = e.buf ++ [(n &&& 0x3f) ||| 0x40] := by
  have h1 : n &&& 0x3f < 64 := by rw [and_0x3f]; omega
  have h3 := or_0x40 _ h1
  have h5 : (n &&& 0x3f) % 256 = n &&& 0x3f := Nat.mod_eq_of_lt (by omega)
  have h6 : ((n &&& 0x3f) ||| 0x40) % 256 = (n &&& 0x3f) ||| 0x40 :=
    Nat.mod_eq_of_lt (by omega)
  simp [CSel, NSel, SetCSel, SetNSel, h, hm, h5, h6]

/-- C8, amended, at the input 0x7F: the selector stored is 0x7F. -/
theorem selector_storage_witness :
    CSel (SetCSel 0x7F sampleEncoder) = 0x7F ∧ NSel (SetNSel 0x7F sampleEncoder) = 0x7F :=
  ⟨(selector_storage sampleEncoder 0x7F rfl rfl).1,
   (selector_storage sampleEncoder 0x7F rfl rfl).2.1⟩

/-- C3. Mode state machine: the mode is Styling right after Reset and NewEncoder
(which return whenever the palette is the default one); a successful StartPath
sets it to Drawing; a successful drawing call leaves it Drawing unless it is
ClosePathEndPath, which sets it back to Styling; SetCSel, SetNSel and SetLOD never
change it. Hence, after any sequence of calls made on a reset encoder, the mode is
Drawing exactly when the sequence ends between a successful StartPath and the
next successful ClosePathEndPath. -/
theorem mode_state_machine :
    (∀ (e : Encoder E) (m : Metadata E), E.paletteEq m.Palette E.DefaultPalette = true →
      ∃ e2, Reset e m = Except.ok e2) ∧
    (∀ (e e2 : Encoder E) (m : Metadata E), Reset e m = Except.ok e2 →
      e2.mode = Mode.modeStyling) ∧
    (∀ (e2 : Encoder E) (m : Metadata E), NewEncoder m = Except.ok e2 →
      e2.mode = Mode.modeStyling) ∧
    (∀ (e : Encoder E) (adj : Int) (x y : E.F32), e.err = none → e.mode = Mode.modeStyling →
      0 ≤ adj → adj ≤ 6 →
      (StartPath adj x y e).mode = Mode.modeDrawing ∧ (StartPath adj x y e).err = none) ∧
    (∀ (c : Call E) (e : Encoder E), c.isDrawing = true → e.err = none →
      e.mode = Mode.modeDrawing →
      ∃ e2, c.apply e = Except.ok e2 ∧ e2.err = none ∧
        (c ≠ Call.ClosePathEndPath → e2.mode = Mode.modeDrawing) ∧
        (c = Call.ClosePathEndPath → e2.mode = Mode.modeStyling)) ∧
    (∀ (e : Encoder E) (n : Nat) (lod0 lod1 : E.F32),
      (SetCSel n e).mode = e.mode ∧ (SetNSel n e).mode = e.mode ∧
      (SetLOD lod0 lod1 e).mode = e.mode) ∧
    (∀ (e e0 : Encoder E) (m : Metadata E) (cs : List (Call E)), Reset e m = Except.ok e0 →
      ∃ e2, run cs e0 = Except.ok e2 ∧
        (e2.mode = Mode.modeDrawing ↔ inDrawingWindow e0 cs)) := by
  refine ⟨Reset_returns, fun e e2 m h => (Reset_fields e e2 m h).1,
    fun e2 m h => (Reset_fields _ e2 m h).1, ?_, ?_, ?_, ?_⟩
  · intro e adj x y h hm h0 h6
    have hc : ¬ (adj < 0 ∨ 6 < adj) := by omega
    simp [StartPath, h, hm, hc]
  · intro c e hd h hm
    obtain ⟨e2, h2, herr, hmode, _⟩ := apply_drawing_frame c e hd h hm
    refine ⟨e2, h2, herr, ?_, ?_⟩
    · intro hc
      rw [hmode, if_neg]
      cases c <;> simp [Call.drawOp]
      exact hc rfl
    · intro hc
      subst hc
      simpa [Call.drawOp] using hmode
  · intro e n lod0 lod1
    refine ⟨?_, ?_, ?_⟩
    · simp only [SetCSel]; split_ifs <;> rfl
    · simp only [SetNSel]; split_ifs <;> rfl
    · simp only [SetLOD]; split_ifs <;> rfl
  · intro e e0 m cs h
    obtain ⟨e2, h2⟩ := run_total cs e0
    exact ⟨e2, h2, mode_trace e0 (Reset_fields e e0 m h).1 cs e2 h2⟩

/-- C3 at a concrete input: on a freshly reset encoder, StartPath(0, 0, 0) then
AbsLineTo(1, 1) run to an encoder whose mode is Drawing exactly when the two calls
end in a drawing window. -/
theorem mode_state_machine_witness :
    ∃ e2, run [Call.StartPath 0 (0 : Int) (0 : Int), Call.AbsLineTo (1 : Int) (1 : Int)]
        sampleEncoder = Except.ok e2 ∧
      (e2.mode = Mode.modeDrawing ↔
        inDrawingWindow sampleEncoder
          [Call.StartPath 0 (0 : Int) (0 : Int), Call.AbsLineTo (1 : Int) (1 : Int)]) :=
  mode_state_machine.2.2.2.2.2.2 (emptyEncoder sampleMetadata) sampleEncoder sampleMetadata _
    sample_reset

/-- C9. Finalization: in every encoder state, the one with a nil buffer included,
Bytes returns the current buffer and no error when no error is latched, and no
bytes and the latched error when one is, never both bytes and an error; it leaves
the encoder as it is and does not flush: after a drawing call that only joins the
pending run, Bytes still returns the buffer of before the call. -/
theorem bytes_finalization (e : Encoder E) :
    (e.err = none → (Bytes e).1 = (e.buf, none)) ∧
    (∀ err, e.err = some err → (Bytes e).1 = ([], some err)) ∧
    ¬ ((Bytes e).1.1 ≠ [] ∧ (Bytes e).1.2 ≠ none) ∧
    (Bytes e).2 = e ∧
    (∀ c : Call E, c.isDrawing = true → e.err = none → e.mode = Mode.modeDrawing →
      (e.drawOp = c.drawOp ∨ e.drawOp = 0) →
      c.drawOp ≠ 90 → c.drawOp ≠ 89 → c.drawOp ≠ 121 →
      ∃ e2, c.apply e = Except.ok e2 ∧ e2.drawArgs = e.drawArgs ++ c.tuple ∧
        (Bytes e2).1 = (e.buf, none)) := by
  refine ⟨?_, ?_, ?_, ?_, ?_⟩
  · intro h; simp [Bytes, h]
  · intro err h; simp [Bytes, h]
  · cases h : e.err <;> simp [Bytes, h]
  · cases h : e.err <;> simp [Bytes, h]
  · intro c hd h hm hop hz hy hy2
    exact ⟨_, apply_pending c e hd h hm hop hz hy hy2, rfl, by simp [Bytes, h]⟩

/-- C9 at concrete inputs: after StartPath(0, 0, 0), the call AbsLineTo(1, 1)
stays pending and Bytes returns the buffer as StartPath left it; on the encoder
with an empty buffer and no error Bytes returns no byte and no error; on the
encoder with the error of StartPath(7, 0, 0) it returns no byte and that error. -/
theorem bytes_finalization_witness :
    (∃ e2, (Call.AbsLineTo (1 : Int) (1 : Int)).apply sampleDrawing = Except.ok e2 ∧
      e2.drawArgs
        = sampleDrawing.drawArgs ++ (Call.AbsLineTo (1 : Int) (1 : Int) : Call sampleEnv).tuple ∧
      (Bytes e2).1 = (sampleDrawing.buf, none)) ∧
    (Bytes (emptyEncoder sampleMetadata)).1 = ([], none) ∧
    (Bytes sampleFailed).1 = ([], some Error.errInvalidSelectorAdjustment) :=
  ⟨(bytes_finalization sampleDrawing).2.2.2.2 (Call.AbsLineTo (1 : Int) (1 : Int))
    (by decide) (by decide) (by decide) (by decide) (by decide) (by decide) (by decide),
   (bytes_finalization (emptyEncoder sampleMetadata)).1 rfl,
   (bytes_finalization sampleFailed).2.1 _ rfl⟩

/-- C10. Default suppression: for metadata equal to the defaults, Reset and
NewEncoder return and leave the buffer equal to the magic prefix followed by
encodeNatural(0): a chunk count of zero and no chunk bytes. -/
theorem reset_default_header (e : Encoder E) (m : Metadata E)
    (hv : m.ViewBox.eq (DefaultViewBox E) = true)
    (hp : E.paletteEq m.Palette E.DefaultPalette = true) :
    (∃ e2, Reset e m = Except.ok e2 ∧ e2.buf = E.magic ++ E.encodeNatural 0) ∧
    (∃ e2, NewEncoder m = Except.ok e2 ∧ e2.buf = E.magic ++ E.encodeNatural 0) :=
  ⟨⟨_, Reset_of_default e m hv hp, rfl⟩, ⟨_, Reset_of_default _ m hv hp, rfl⟩⟩

/-- C10 at a concrete input: the default metadata of the sample environment. -/
theorem reset_default_header_witness :
    (∃ e2, Reset sampleFailed sampleMetadata = Except.ok e2 ∧
      e2.buf = [0x89, 0x49, 0x56, 0x47] ++ [1, 0]) ∧
    (∃ e2, NewEncoder sampleMetadata = Except.ok e2 ∧
      e2.buf = [0x89, 0x49, 0x56, 0x47] ++ [1, 0]) :=
  reset_default_header sampleFailed sampleMetadata (by decide) (by decide)

/-- C5. Draw-op batching: for a pending operation with nArgs > 0 and n >= 1
complete tuples pending, flushDrawOps appends the groups of the chunks of at most
maxRepCount tuples, each group being the opcode byte opcodeBase + m - 1 followed by
the encodings of its m tuples; there are ceil(n / maxRepCount) groups, all but the
last of maxRepCount tuples, the last of between 1 and maxRepCount; the chunks put
together are the tuples in their order; and maxRepCount + 1 tuples give exactly two
groups, of maxRepCount tuples and of one tuple. -/
theorem flush_batching (e : Encoder E) (ts : List (List E.F32))
    (hn : 0 < (drawOps e.drawOp).nArgs) (hargs : e.drawArgs = ts.flatten)
    (hlen : ∀ t ∈ ts, t.length = (drawOps e.drawOp).nArgs) (hne : 1 ≤ ts.length) :
    flushDrawOps e = Except.ok
      { e with
        buf := e.buf ++ (specChunks (drawOps e.drawOp).maxRepCount ts).flatMap
          (specGroup e.drawOp)
        drawOp := 0
        drawArgs := [] } ∧
    (specChunks (drawOps e.drawOp).maxRepCount ts).length
      = (ts.length + (drawOps e.drawOp).maxRepCount - 1) / (drawOps e.drawOp).maxRepCount ∧
    (∀ g ∈ (specChunks (drawOps e.drawOp).maxRepCount ts).dropLast,
      g.length = (drawOps e.drawOp).maxRepCount) ∧
    (∃ last, (specChunks (drawOps e.drawOp).maxRepCount ts).getLast? = some last ∧
      1 ≤ last.length ∧ last.length ≤ (drawOps e.drawOp).maxRepCount) ∧
    (specChunks (drawOps e.drawOp).maxRepCount ts).flatten = ts ∧
    (ts.length = (drawOps e.drawOp).maxRepCount + 1 →
      specChunks (drawOps e.drawOp).maxRepCount ts
        = [ts.take (drawOps e.drawOp).maxRepCount, ts.drop (drawOps e.drawOp).maxRepCount] ∧
      (ts.take (drawOps e.drawOp).maxRepCount).length = (drawOps e.drawOp).maxRepCount ∧
      (ts.drop (drawOps e.drawOp).maxRepCount).length = 1) := by
  have hn0 : (drawOps e.drawOp).nArgs ≠ 0 := by omega
  obtain ⟨hk, _, _, _, _⟩ := drawOps_facts e.drawOp hn0
  have hflat : (specChunks (drawOps e.drawOp).maxRepCount ts).flatten = ts :=
    specChunksAux_flatten _ hk _ _ (le_refl _)
  refine ⟨?_, specChunksAux_length _ hk _ _ (le_refl _), specChunksAux_dropLast _ _ _, ?_,
    hflat, ?_⟩
  · have := flushDrawOps_spec e ts [] hn0 (by rw [hargs, List.append_nil]) hlen (by simpa using hn)
    rw [this]
    rfl
  · have hne2 : specChunks (drawOps e.drawOp).maxRepCount ts ≠ [] := by
      intro h0
      rw [h0] at hflat
      rw [← hflat] at hne
      simp at hne
    refine ⟨_, List.getLast?_eq_getLast _ hne2, ?_⟩
    exact specChunksAux_length_mem _ hk _ _ _ (List.getLast_mem hne2)
  · intro hlen2
    cases ts with
    | nil => simp at hne
    | cons t ts =>
      have hd : ((t :: ts).drop (drawOps e.drawOp).maxRepCount).length = 1 := by
        rw [List.length_drop]; omega
      refine ⟨?_, by rw [List.length_take]; omega, hd⟩
      rw [specChunks_cons _ hk]
      congr 1
      match hdr : (t :: ts).drop (drawOps e.drawOp).maxRepCount, hd with
      | [u], _ =>
        rw [specChunks_cons _ hk]
        have h1 : List.take (drawOps e.drawOp).maxRepCount [u] = [u] :=
          List.take_of_length_le (by simpa using hk)
        have h2 : List.drop (drawOps e.drawOp).maxRepCount [u] = [] :=
          List.drop_eq_nil_of_le (by simpa using hk)
        rw [h1, h2, specChunks_nil]

/-- C5 at a concrete input: the 33 calls AbsLineTo(i, i) leave 33 tuples pending,
and the flush writes two groups: the opcode 0x1f with the first 32 tuples, then the
opcode 0x00 with the last one. -/
theorem flush_batching_witness :
    run sampleCalls sampleDrawing = Except.ok samplePending ∧
    flushDrawOps samplePending = Except.ok
      { samplePending with
        buf := samplePending.buf ++ (specChunks 32 sampleTuples).flatMap (specGroup 76)
        drawOp := 0
        drawArgs := [] } ∧
    specChunks 32 sampleTuples = [sampleTuples.take 32, sampleTuples.drop 32] ∧
    (specGroup 76 (sampleTuples.take 32)).head? = some 0x1f ∧
    (sampleTuples.take 32).length = 32 ∧
    (specGroup 76 (sampleTuples.drop 32)).head? = some 0x00 ∧
    (sampleTuples.drop 32).length = 1 :=
  ⟨by rfl,
   (flush_batching samplePending sampleTuples (by decide) (by rfl) (by decide) (by decide)).1,
   ((flush_batching samplePending sampleTuples (by decide) (by rfl) (by decide)
      (by decide)).2.2.2.2.2 (by decide)).1,
   by rfl, by rfl, by rfl, by rfl⟩

/-- C6. Whole-path output: on an encoder reset with metadata equal to the
defaults, for an adjustment in [0, 6] and drawing calls cs without
ClosePathEndPath, the calls StartPath(adj, x, y); cs; ClosePathEndPath() return
and Bytes then returns, with no error, the magic, encodeNatural(0), the byte
0xc0 + adj, the coordinates x and y, the opcode groups of each maximal run of
same-kind calls of cs in call order, and the terminator 0xe1. For two AbsLineTo
calls after StartPath(0, x, y) these bytes are 0xc0, the two coordinates, the
opcode 0x01 with the four coordinates of the calls, and 0xe1. -/
theorem whole_path_output (e : Encoder E) (m : Metadata E)
    (hv : m.ViewBox.eq (DefaultViewBox E) = true)
    (hp : E.paletteEq m.Palette E.DefaultPalette = true)
    (adj : Int) (x y : E.F32) (cs : List (Call E)) (h0 : 0 ≤ adj) (h6 : adj ≤ 6)
    (hcs : ∀ c ∈ cs, c.isDrawing = true ∧ c ≠ Call.ClosePathEndPath) :
    (∃ e0 e2, Reset e m = Except.ok e0 ∧
      run (Call.StartPath adj x y :: (cs ++ [Call.ClosePathEndPath])) e0 = Except.ok e2 ∧
      (Bytes e2).1
        = (E.magic ++ E.encodeNatural 0 ++ specPath adj.toNat x y cs, none)) ∧
    (∀ x1 y1 x2 y2 : E.F32,
      specPath 0 x y [Call.AbsLineTo x1 y1, Call.AbsLineTo x2 y2]
        = [0xc0] ++ E.encodeCoordinate x ++ E.encodeCoordinate y ++ [0x01]
          ++ E.encodeCoordinate x1 ++ E.encodeCoordinate y1 ++ E.encodeCoordinate x2
          ++ E.encodeCoordinate y2 ++ [0xe1]) := by
  constructor
  · have hb : ((0xc0 + adj) % 256).toNat = 0xc0 + adj.toNat := by omega
    have hc : ¬ (adj < 0 ∨ 6 < adj) := by omega
    have hrun : ∃ e2, run (Call.StartPath adj x y :: (cs ++ [Call.ClosePathEndPath]))
        ({ buf := E.magic ++ E.encodeNatural 0
           altBuf := []
           metadata := m
           err := none
           mode := Mode.modeStyling
           drawOp := 0
           drawArgs := []
           cSel := 0
           nSel := 0
           lod0 := E.zero
           lod1 := E.positiveInfinity } : Encoder E) = Except.ok e2 ∧ e2.err = none ∧
        e2.buf = E.magic ++ E.encodeNatural 0 ++ specPath adj.toNat x y cs := by
      rw [run_cons]
      simp only [Call.apply]
      have hpend : Pending (StartPath adj x y
          ({ buf := E.magic ++ E.encodeNatural 0
             altBuf := []
             metadata := m
             err := none
             mode := Mode.modeStyling
             drawOp := 0
             drawArgs := []
             cSel := 0
             nSel := 0
             lod0 := E.zero
             lod1 := E.positiveInfinity } : Encoder E)) [] := by
        refine ⟨?_, ?_, ?_, by simp, fun _ => ?_⟩ <;> simp [StartPath, hc]
      refine ⟨_, run_path cs [] _ hcs hpend, ?_, ?_⟩
      · simp [StartPath, hc]
      · simp [StartPath, hc, hb, specPath]
    obtain ⟨e2, h2, herr, hbuf⟩ := hrun
    exact ⟨_, e2, Reset_of_default e m hv hp, h2, by simp [Bytes, herr, hbuf]⟩
  · intro x1 y1 x2 y2
    simp [specPath, specDraw, specRuns, Call.drawOp, Call.tuple, specFlush, specChunks,
      specChunksAux, specGroup, encodeTuple, drawOps, drawOpsTable, List.lookup]

/-- C6 at the concrete scenario: StartPath(0, 0, 0); AbsLineTo(1, 1);
AbsLineTo(2, 2); ClosePathEndPath() on a freshly reset sample encoder. -/
theorem whole_path_output_witness :
    ∃ e0 e2, Reset (emptyEncoder sampleMetadata) sampleMetadata = Except.ok e0 ∧
      run (Call.StartPath 0 (0 : Int) (0 : Int)
        :: ([Call.AbsLineTo (1 : Int) (1 : Int), Call.AbsLineTo (2 : Int) (2 : Int)]
          ++ [Call.ClosePathEndPath])) e0 = Except.ok e2 ∧
      (Bytes e2).1 =
        ([0x89, 0x49, 0x56, 0x47] ++ [1, 0] ++
          [0xc0, 3, 0, 3, 0, 0x01, 3, 1, 3, 1, 3, 2, 3, 2, 0xe1], none) :=
  (whole_path_output (emptyEncoder sampleMetadata) sampleMetadata (by decide) (by decide)
    0 (0 : Int) (0 : Int) [Call.AbsLineTo (1 : Int) (1 : Int), Call.AbsLineTo (2 : Int) (2 : Int)]
    (by decide) (by decide) (by
      intro c hc
      simp only [List.mem_cons, List.mem_singleton, List.not_mem_nil, or_false] at hc
      rcases hc with rfl | rfl <;> exact ⟨rfl, fun h => Call.noConfusion h⟩)).1

/-- C11, as stated, fails: for the view box (0, 0) - (1, 1) of the sample
environment, Reset writes the length 10 of tag and payload together and then the
tag, where the layout of the specification has the tag and then the length 8 of
the payload alone. -/
theorem viewBox_header_counterexample :
    ∃ e2, Reset (emptyEncoder sampleViewBoxMetadata) sampleViewBoxMetadata = Except.ok e2 ∧
      e2.buf = [0x89, 0x49, 0x56, 0x47] ++ [1, 1] ++ [1, 10] ++ [1, 0]
        ++ [3, 0, 3, 0, 3, 1, 3, 1] ∧
      specViewBoxHeader sampleViewBoxMetadata = [0x89, 0x49, 0x56, 0x47] ++ [1, 1] ++ [1, 0]
        ++ [1, 8] ++ [3, 0, 3, 0, 3, 1, 3, 1] ∧
      e2.buf ≠ specViewBoxHeader sampleViewBoxMetadata :=
  ⟨_, rfl, by decide, by decide, by decide⟩

/-- C11, amended. For a view box that is not the default one and the default
palette, Reset leaves the buffer equal to the magic, encodeNatural(1), then
encodeNatural(L), then the chunk-kind tag encodeNatural(midViewBox), then the
payload P of the four coordinates Min[0], Min[1], Max[0], Max[1], where L is the
byte length, as a uint32, of the tag and P together. -/
theorem viewBox_header (e : Encoder E) (m : Metadata E)
    (hv : m.ViewBox.eq (DefaultViewBox E) = false)
    (hp : E.paletteEq m.Palette E.DefaultPalette = true) :
    ∃ e2, Reset e m = Except.ok e2 ∧
      e2.buf = E.magic ++ E.encodeNatural 1
        ++ E.encodeNatural
          (((E.encodeNatural E.midViewBox).length + (specViewBoxPayload m).length) % 2 ^ 32)
        ++ E.encodeNatural E.midViewBox ++ specViewBoxPayload m ∧
      specViewBoxPayload m = E.encodeCoordinate m.ViewBox.Min.1
        ++ E.encodeCoordinate m.ViewBox.Min.2 ++ E.encodeCoordinate m.ViewBox.Max.1
        ++ E.encodeCoordinate m.ViewBox.Max.2 := by
  refine ⟨_, Reset_of_viewBox e m hv hp, ?_, rfl⟩
  simp [List.length_append, List.append_assoc]

/-- C11, amended, at a concrete input: the view box (0, 0) - (1, 1) of the sample
environment. -/
theorem viewBox_header_witness :
    ∃ e2, Reset sampleFailed sampleViewBoxMetadata = Except.ok e2 ∧
      e2.buf = [0x89, 0x49, 0x56, 0x47] ++ [1, 1] ++ [1, 10] ++ [1, 0]
        ++ [3, 0, 3, 0, 3, 1, 3, 1] := by
  obtain ⟨e2, h, hbuf, _⟩ := viewBox_header sampleFailed sampleViewBoxMetadata (by decide)
    (by decide)
  exact ⟨e2, h, hbuf⟩

/-- C12, as stated, fails: for a palette that is not the default one, Reset and
NewEncoder end in the panic and leave no encoder whose error Bytes could
return. -/
theorem reset_palette_counterexample :
    Reset sampleEncoder samplePaletteMetadata = Except.error Fault.todoSuggestedPalette ∧
    NewEncoder samplePaletteMetadata = Except.error Fault.todoSuggestedPalette :=
  ⟨rfl, rfl⟩

/-- C12, amended. For every Metadata whose palette equals DefaultPalette, Reset and
NewEncoder return normally, with no error latched; for a palette that differs
from DefaultPalette they end in the panic of Reset instead of latching an
error. -/
theorem reset_no_fault (e : Encoder E) (m : Metadata E) :
    (E.paletteEq m.Palette E.DefaultPalette = true →
      (∃ e2, Reset e m = Except.ok e2 ∧ e2.err = none) ∧
      (∃ e2, NewEncoder m = Except.ok e2 ∧ e2.err = none)) ∧
    (E.paletteEq m.Palette E.DefaultPalette = false →
      Reset e m = Except.error Fault.todoSuggestedPalette ∧
      NewEncoder m = Except.error Fault.todoSuggestedPalette) := by
  constructor
  · intro hp
    obtain ⟨e2, h2⟩ := Reset_returns e m hp
    obtain ⟨e3, h3⟩ := Reset_returns (emptyEncoder m) m hp
    exact ⟨⟨e2, h2, (Reset_fields e e2 m h2).2.1⟩, ⟨e3, h3, (Reset_fields _ e3 m h3).2.1⟩⟩
  · intro hp
    exact ⟨Reset_of_palette e m hp, Reset_of_palette _ m hp⟩

/-- C12, amended, at concrete inputs: the non-default view box with the default
palette, and the non-default palette. -/
theorem reset_no_fault_witness :
    ((∃ e2, Reset sampleFailed sampleViewBoxMetadata = Except.ok e2 ∧ e2.err = none) ∧
      (∃ e2, NewEncoder sampleViewBoxMetadata = Except.ok e2 ∧ e2.err = none)) ∧
    (Reset sampleFailed samplePaletteMetadata = Except.error Fault.todoSuggestedPalette ∧
      NewEncoder samplePaletteMetadata = Except.error Fault.todoSuggestedPalette) :=
  ⟨(reset_no_fault sampleFailed sampleViewBoxMetadata).1 (by decide),
   (reset_no_fault sampleFailed samplePaletteMetadata).2 (by decide)⟩

/-- C13. Reset re-derives all state: for metadata with the default palette there
is one encoder that Reset leaves whatever encoder it is called on, and NewEncoder
returns it too: no error latched, mode Styling, nothing pending, CSel() = 0,
NSel() = 0, LOD() = (0, positiveInfinity), and a buffer that holds the header for
the metadata only. In particular Reset clears a latched error and is
idempotent. -/
theorem reset_rederives (m : Metadata E)
    (hp : E.paletteEq m.Palette E.DefaultPalette = true) :
    ∃ e2, (∀ s : Encoder E, Reset s m = Except.ok e2) ∧
      NewEncoder m = Except.ok e2 ∧
      Reset e2 m = Except.ok e2 ∧
      e2.err = none ∧ e2.mode = Mode.modeStyling ∧ e2.drawOp = 0 ∧ e2.drawArgs = [] ∧
      CSel e2 = 0 ∧ NSel e2 = 0 ∧ LOD e2 = (E.zero, E.positiveInfinity) ∧
      e2.metadata = m ∧
      (m.ViewBox.eq (DefaultViewBox E) = true → e2.buf = E.magic ++ E.encodeNatural 0) ∧
      (m.ViewBox.eq (DefaultViewBox E) = false →
        e2.buf = E.magic ++ E.encodeNatural 1
          ++ E.encodeNatural
            ((E.encodeNatural E.midViewBox ++ specViewBoxPayload m).length % 2 ^ 32)
          ++ (E.encodeNatural E.midViewBox ++ specViewBoxPayload m)) := by
  cases hv : m.ViewBox.eq (DefaultViewBox E) with
  | true =>
    exact ⟨_, fun s => Reset_of_default s m hv hp, Reset_of_default _ m hv hp,
      Reset_of_default _ m hv hp, rfl, rfl, rfl, rfl, rfl, rfl, rfl, rfl, fun _ => rfl,
      fun h => absurd h (by decide)⟩
  | false =>
    exact ⟨_, fun s => Reset_of_viewBox s m hv hp, Reset_of_viewBox _ m hv hp,
      Reset_of_viewBox _ m hv hp, rfl, rfl, rfl, rfl, rfl, rfl, rfl, rfl,
      fun h => absurd h (by decide), fun _ => rfl⟩

/-- C13 at a concrete input: Reset on the sample encoder with a latched error, and
on the sample encoder inside a path, leaves the freshly reset sample encoder. -/
theorem reset_rederives_witness :
    ∃ e2, Reset sampleFailed sampleMetadata = Except.ok e2 ∧
      Reset samplePending sampleMetadata = Except.ok e2 ∧
      NewEncoder sampleMetadata = Except.ok e2 ∧ e2.err = none ∧
      e2.buf = [0x89, 0x49, 0x56, 0x47] ++ [1, 0] := by
  obtain ⟨e2, hall, hnew, _, herr, _, _, _, _, _, _, _, hbuf, _⟩ :=
    reset_rederives sampleMetadata (by decide)
  exact ⟨e2, hall _, hall _, hnew, herr, hbuf (by decide)⟩

/-- C14, as stated, fails: the table gives the horizontal and vertical line
operations the maximum run length 1, not 32. -/
theorem maxRepCount_counterexample :
    (drawOps (Call.AbsHLineTo (0 : Int) : Call sampleEnv).drawOp).maxRepCount = 1 ∧
    (drawOps (Call.RelHLineTo (0 : Int) : Call sampleEnv).drawOp).maxRepCount ≠ 32 ∧
    (drawOps (Call.AbsVLineTo (0 : Int) : Call sampleEnv).drawOp).maxRepCount ≠ 32 ∧
    (drawOps (Call.RelVLineTo (0 : Int) : Call sampleEnv).drawOp).maxRepCount ≠ 32 := by
  decide

/-- C14, amended. The maximum run length in the table is 32 for AbsLineTo and
RelLineTo, 16 for every curve and arc operation (smooth-quad, quad, smooth-cube,
cube and arc, absolute and relative), and 1 for the horizontal and vertical line
operations and for the three path terminators. -/
theorem maxRepCount_table :
    (∀ x y : E.F32,
      (drawOps (Call.AbsLineTo x y : Call E).drawOp).maxRepCount = 32 ∧
      (drawOps (Call.RelLineTo x y : Call E).drawOp).maxRepCount = 32 ∧
      (drawOps (Call.AbsSmoothQuadTo x y : Call E).drawOp).maxRepCount = 16 ∧
      (drawOps (Call.RelSmoothQuadTo x y : Call E).drawOp).maxRepCount = 16 ∧
      (drawOps (Call.ClosePathAbsMoveTo x y : Call E).drawOp).maxRepCount = 1 ∧
      (drawOps (Call.ClosePathRelMoveTo x y : Call E).drawOp).maxRepCount = 1 ∧
      (drawOps (Call.AbsHLineTo x : Call E).drawOp).maxRepCount = 1 ∧
      (drawOps (Call.RelHLineTo x : Call E).drawOp).maxRepCount = 1 ∧
      (drawOps (Call.AbsVLineTo y : Call E).drawOp).maxRepCount = 1 ∧
      (drawOps (Call.RelVLineTo y : Call E).drawOp).maxRepCount = 1) ∧
    (∀ x1 y1 x y : E.F32,
      (drawOps (Call.AbsQuadTo x1 y1 x y : Call E).drawOp).maxRepCount = 16 ∧
      (drawOps (Call.RelQuadTo x1 y1 x y : Call E).drawOp).maxRepCount = 16 ∧
      (drawOps (Call.AbsSmoothCubeTo x1 y1 x y : Call E).drawOp).maxRepCount = 16 ∧
      (drawOps (Call.RelSmoothCubeTo x1 y1 x y : Call E).drawOp).maxRepCount = 16) ∧
    (∀ x1 y1 x2 y2 x y : E.F32,
      (drawOps (Call.AbsCubeTo x1 y1 x2 y2 x y : Call E).drawOp).maxRepCount = 16 ∧
      (drawOps (Call.RelCubeTo x1 y1 x2 y2 x y : Call E).drawOp).maxRepCount = 16) ∧
    (∀ (rx ry rot x y : E.F32) (largeArc sweep : Bool),
      (drawOps (Call.AbsArcTo rx ry rot largeArc sweep x y : Call E).drawOp).maxRepCount = 16 ∧
      (drawOps (Call.RelArcTo rx ry rot largeArc sweep x y : Call E).drawOp).maxRepCount = 16) ∧
    (drawOps (Call.ClosePathEndPath : Call E).drawOp).maxRepCount = 1 := by
  refine ⟨fun _ _ => ?_, fun _ _ _ _ => ?_, fun _ _ _ _ _ _ => ?_, fun _ _ _ _ _ _ _ => ?_, ?_⟩ <;>
    simp only [Call.drawOp] <;> decide

/-- C16. SetLOD contract: with no error latched and in Styling mode, SetLOD
appends exactly the byte 0xc7 followed by encodeReal(lod0) and encodeReal(lod1),
makes LOD() return (lod0, lod1), and changes no other field: mode, selectors,
pending run and error state stay as they are. -/
theorem setLOD_contract (e : Encoder E) (lod0 lod1 : E.F32)
    (h : e.err = none) (hm : e.mode = Mode.modeStyling) :
    SetLOD lod0 lod1 e =
      { e with
        lod0 := lod0
        lod1 := lod1
        buf := e.buf ++ [0xc7] ++ E.encodeReal lod0 ++ E.encodeReal lod1 } ∧
    LOD (SetLOD lod0 lod1 e) = (lod0, lod1) ∧
    (SetLOD lod0 lod1 e).mode = e.mode ∧
    CSel (SetLOD lod0 lod1 e) = CSel e ∧ NSel (SetLOD lod0 lod1 e) = NSel e ∧
    (SetLOD lod0 lod1 e).drawOp = e.drawOp ∧ (SetLOD lod0 lod1 e).drawArgs = e.drawArgs ∧
    (SetLOD lod0 lod1 e).err = none := by
  simp [SetLOD, LOD, CSel, NSel, h, hm]

/-- C16 at a concrete input: SetLOD(5, 9) on a freshly reset sample encoder. -/
theorem setLOD_contract_witness :
    (SetLOD (5 : Int) (9 : Int) sampleEncoder).buf
      = [0x89, 0x49, 0x56, 0x47, 1, 0] ++ [0xc7] ++ [2, 5] ++ [2, 9] ∧
    LOD (SetLOD (5 : Int) (9 : Int) sampleEncoder) = ((5 : Int), (9 : Int)) :=
  ⟨congrArg Encoder.buf (setLOD_contract sampleEncoder (5 : Int) (9 : Int) rfl rfl).1,
   (setLOD_contract sampleEncoder (5 : Int) (9 : Int) rfl rfl).2.1⟩

/-- C17. Pending-run arity invariant: in every state reachable from Reset by
styling and drawing method calls, a pending draw operation has a pending argument
list whose length is a multiple of the argument count the table gives the
operation, and with no operation pending the list is empty. -/
theorem pending_arity (e : Encoder E) (hr : Reachable e) :
    (e.drawOp ≠ 0 → (drawOps e.drawOp).nArgs ∣ e.drawArgs.length) ∧
    (e.drawOp = 0 → e.drawArgs = []) := by
  induction hr with
  | reset e e2 m h =>
    obtain ⟨_, _, h0, ha⟩ := Reset_fields e e2 m h
    exact ⟨fun hne => absurd h0 hne, fun _ => ha⟩
  | call e e2 c _ h ih => exact arity_step c e e2 h ih

/-- C17 at a concrete input: the sample encoder with 33 calls AbsLineTo pending
holds 66 arguments, a multiple of the 2 arguments of the operation 'L'. -/
theorem pending_arity_witness :
    samplePending.drawOp = 76 ∧ (drawOps 76).nArgs = 2 ∧ samplePending.drawArgs.length = 66 ∧
    (drawOps samplePending.drawOp).nArgs ∣ samplePending.drawArgs.length :=
  ⟨rfl, by decide, rfl, (pending_arity samplePending sample_reachable).1 (by decide)⟩

/-- C18. Append-only output: from every state, every styling and drawing method
call returns and leaves a buffer of which the buffer of before the call is a
prefix; Bytes leaves the encoder, and so the buffer, as it is, and the accessors
only read the fields. -/
theorem append_only (e : Encoder E) (c : Call E) :
    (∃ e2, c.apply e = Except.ok e2 ∧ e.buf <+: e2.buf) ∧
    (Bytes e).2 = e ∧
    CSel e = e.cSel ∧ NSel e = e.nSel ∧ LOD e = (e.lod0, e.lod1) := by
  refine ⟨apply_appends c e, ?_, rfl, rfl, rfl⟩
  cases h : e.err <;> simp [Bytes, h]

/-- C19. Drawing never faults: every drawing method passes draw an operation whose
argument count in the table is 0, 1, 2, 4 or 6, so the branch panic("unreachable")
is not taken; and from every state, reachable or not, every drawing method call
and flushDrawOps itself return without a fault: no index into the pending
arguments is out of range and the loops end, whatever the length of the run. -/
theorem drawing_never_faults (e : Encoder E) (c : Call E) (hd : c.isDrawing = true) :
    ((drawOps c.drawOp).nArgs = 0 ∨ (drawOps c.drawOp).nArgs = 1 ∨
      (drawOps c.drawOp).nArgs = 2 ∨ (drawOps c.drawOp).nArgs = 4 ∨
      (drawOps c.drawOp).nArgs = 6) ∧
    (∃ e2, c.apply e = Except.ok e2) ∧
    (∃ e2, flushDrawOps e = Except.ok e2) := by
  refine ⟨?_, apply_total c e, ?_⟩
  · cases c <;> simp [Call.isDrawing, Call.isStyling] at hd <;>
      simp only [Call.drawOp] <;> decide
  · obtain ⟨out, h⟩ := flushDrawOps_total e
    exact ⟨_, h⟩

/-- C19 at a concrete input: ClosePathEndPath on the sample encoder with a run of
33 tuples pending, one more than maxRepCount, returns. -/
theorem drawing_never_faults_witness :
    (∃ e2, (Call.ClosePathEndPath : Call sampleEnv).apply samplePending = Except.ok e2) ∧
    (∃ e2, flushDrawOps samplePending = Except.ok e2) ∧
    Reachable samplePending :=
  ⟨(drawing_never_faults samplePending Call.ClosePathEndPath rfl).2.1,
   (drawing_never_faults samplePending Call.ClosePathEndPath rfl).2.2,
   sample_reachable⟩

/-- C20. Nothing is left pending outside a path: in every state reachable from
Reset by styling and drawing method calls, if the mode is Styling then no draw
operation is pending and the pending argument list is empty; a successful
ClosePathEndPath, ClosePathAbsMoveTo or ClosePathRelMoveTo leaves no draw
operation pending and no pending argument; and once the ClosePathEndPath of a
path has succeeded, every argument passed to a drawing method of the path has
been written to the output buffer: the buffer is that of before the path, the
opcode and coordinates of StartPath, then groups of calls, each an opcode byte
followed by the encodings of the tuples of its calls, the calls of the groups
being the calls of the path in their order, then the terminator. -/
theorem nothing_pending_outside_path (e : Encoder E) (hr : Reachable e) :
    (e.mode = Mode.modeStyling → e.drawOp = 0 ∧ e.drawArgs = []) ∧
    (∀ c : Call E,
      (c = Call.ClosePathEndPath ∨ (∃ x y, c = Call.ClosePathAbsMoveTo x y) ∨
        (∃ x y, c = Call.ClosePathRelMoveTo x y)) →
      c.succeeds e = true →
      ∃ e2, c.apply e = Except.ok e2 ∧ e2.err = none ∧ e2.drawOp = 0 ∧ e2.drawArgs = []) ∧
    (∀ (adj : Int) (x y : E.F32) (cs : List (Call E)),
      e.err = none → e.mode = Mode.modeStyling → 0 ≤ adj → adj ≤ 6 →
      (∀ c ∈ cs, c.isDrawing = true ∧ c ≠ Call.ClosePathEndPath) →
      ∃ e2, run (Call.StartPath adj x y :: (cs ++ [Call.ClosePathEndPath])) e = Except.ok e2 ∧
        e2.err = none ∧ e2.mode = Mode.modeStyling ∧ e2.drawOp = 0 ∧ e2.drawArgs = [] ∧
        ∃ gs : List (Nat × List (Call E)),
          gs.flatMap Prod.snd = cs ∧
          e2.buf = e.buf ++ [0xc0 + adj.toNat] ++ E.encodeCoordinate x ++ E.encodeCoordinate y
            ++ specGroupsBytes gs ++ [0xe1] ∧
          specGroupsBytes gs = specDraw cs) := by
  have hinv : e.mode = Mode.modeStyling → e.drawOp = 0 ∧ e.drawArgs = [] := by
    induction hr with
    | reset e e2 m h =>
      obtain ⟨_, _, h0, ha⟩ := Reset_fields e e2 m h
      exact fun _ => ⟨h0, ha⟩
    | call e e2 c _ h ih => exact styling_step c e e2 h ih
  refine ⟨hinv, ?_, ?_⟩
  · intro c hc hs
    have hd : c.isDrawing = true := by
      rcases hc with rfl | ⟨x, y, rfl⟩ | ⟨x, y, rfl⟩ <;> rfl
    have hop : c.drawOp = 90 ∨ c.drawOp = 89 ∨ c.drawOp = 121 := by
      rcases hc with rfl | ⟨x, y, rfl⟩ | ⟨x, y, rfl⟩
      · exact Or.inl rfl
      · exact Or.inr (Or.inl rfl)
      · exact Or.inr (Or.inr rfl)
    obtain ⟨e1, h1⟩ := apply_total c e
    obtain ⟨herr, herr1⟩ := (succeeds_iff c e e1 h1).1 hs
    cases hm : e.mode with
    | modeStyling =>
      rw [apply_drawing_in_styling e c herr hm hd] at h1
      cases h1
      simp at herr1
    | modeDrawing =>
      obtain ⟨e2, h2, hclose, _⟩ := apply_drawing_pending c e hd herr hm
      have heq : e2 = e1 := by rw [h2] at h1; exact Except.ok.inj h1
      exact ⟨e2, h2, heq ▸ herr1, hclose hop⟩
  · intro adj x y cs herr hm h0 h6 hcs
    obtain ⟨hop, hargs⟩ := hinv hm
    obtain ⟨e2, h2, herr2, hm2, hop2, hargs2, hbuf⟩ :=
      run_whole_path e adj x y cs herr hm hop hargs h0 h6 hcs
    obtain ⟨gs, hgs, hdraw⟩ := specDraw_groups cs (fun c hc => (hcs c hc).1)
    exact ⟨e2, h2, herr2, hm2, hop2, hargs2, gs, hgs, by rw [hbuf, hdraw], hdraw.symm⟩

/-- C20 at concrete inputs: ClosePathEndPath on the sample encoder with 33 tuples
pending succeeds and leaves nothing pending; and the path StartPath(0, 0, 0);
AbsLineTo(1, 1); AbsLineTo(2, 2); ClosePathEndPath() on the freshly reset sample
encoder leaves nothing pending and the four coordinates in the buffer. -/
theorem nothing_pending_outside_path_witness :
    (∃ e2, (Call.ClosePathEndPath : Call sampleEnv).apply samplePending = Except.ok e2 ∧
      e2.err = none ∧ e2.drawOp = 0 ∧ e2.drawArgs = []) ∧
    (∃ e2, run (Call.StartPath 0 (0 : Int) (0 : Int)
        :: ([Call.AbsLineTo (1 : Int) (1 : Int), Call.AbsLineTo (2 : Int) (2 : Int)]
          ++ [Call.ClosePathEndPath])) sampleEncoder = Except.ok e2 ∧
      e2.drawOp = 0 ∧ e2.drawArgs = [] ∧
      e2.buf = sampleEncoder.buf
        ++ [0xc0, 3, 0, 3, 0, 0x01, 3, 1, 3, 1, 3, 2, 3, 2, 0xe1]) := by
  refine ⟨(nothing_pending_outside_path samplePending sample_reachable).2.1
    Call.ClosePathEndPath (Or.inl rfl) rfl, ?_⟩
  obtain ⟨e2, h2, _, _, hop, hargs, gs, _, hbuf, hdraw⟩ :=
    (nothing_pending_outside_path sampleEncoder (Reachable.reset _ _ _ sample_reset)).2.2
      0 (0 : Int) (0 : Int)
      [Call.AbsLineTo (1 : Int) (1 : Int), Call.AbsLineTo (2 : Int) (2 : Int)]
      rfl rfl (by decide) (by decide) (by
        intro c hc
        simp only [List.mem_cons, List.mem_singleton, List.not_mem_nil, or_false] at hc
        rcases hc with rfl | rfl <;> exact ⟨rfl, fun h => Call.noConfusion h⟩)
  refine ⟨e2, h2, hop, hargs, ?_⟩
  rw [hbuf, hdraw]
  rfl

/-- C21. Drawing opcodes are unambiguous: the table lists 19 op kinds, all
different; for each kind and each run length m with 1 <= m <= maxRepCount the
opcode byte flushDrawOps emits is opcodeBase + m - 1, at most 255, so the uint8
arithmetic does not wrap; and the map from kind and run length to the opcode byte
is injective: two runs with the same opcode byte have the same kind and the same
length. -/
theorem opcodes_unambiguous :
    drawOpKinds.length = 19 ∧ drawOpKinds.Nodup ∧
    ∀ c d m n : Nat, c ∈ drawOpKinds → d ∈ drawOpKinds →
      1 ≤ m → m ≤ (drawOps c).maxRepCount → 1 ≤ n → n ≤ (drawOps d).maxRepCount →
      opcodeByte c m = (drawOps c).opcodeBase + m - 1 ∧ opcodeByte c m ≤ 255 ∧
      (opcodeByte c m = opcodeByte d n → c = d ∧ m = n) := by
  refine ⟨by decide, by decide, ?_⟩
  intro c d m n hc hd hm1 hm hn1 hn
  obtain ⟨hcm, hc255⟩ := opcodeByte_eq c m hc hm1 hm
  obtain ⟨hdn, _⟩ := opcodeByte_eq d n hd hn1 hn
  refine ⟨hcm, hc255, fun heq => ?_⟩
  rw [hcm, hdn] at heq
  by_cases hcd : c = d
  · subst hcd
    exact ⟨rfl, by omega⟩
  · rcases drawOpKinds_disjoint c hc d hd hcd with h | h <;> omega

/-- C21 at concrete inputs: a full run of 32 tuples of 'L' has the opcode byte
0x1f and a run of one tuple of 'l' the next byte 0x20; the terminator 'Z' has the
byte 0xe1. -/
theorem opcodes_unambiguous_witness :
    opcodeByte 76 32 = 0x1f ∧ opcodeByte 108 1 = 0x20 ∧ opcodeByte 90 1 = 0xe1 ∧
    (opcodeByte 76 32 = opcodeByte 108 1 → 76 = 108 ∧ 32 = 1) :=
  ⟨by decide, by decide, by decide,
   (opcodes_unambiguous.2.2 76 108 32 1 (by decide) (by decide) (by decide) (by decide)
     (by decide) (by decide)).2.2⟩

end Iconvg
